import Mathlib

/-!
Verification development for the pragma-dsp repository (TypeScript DSP library).

The TypeScript source is shallowly embedded in Lean:
  * IEEE-754 doubles are modelled as exact real numbers (`ℝ`); complex spectra
    as `ℂ`.  Equality statements in this exact model correspond to the spec's
    "within 1e-10 / 1e-9 absolute error" tolerances (the exact error is 0).
  * `Float64Array` buffers are modelled as `List` values; a JavaScript
    typed-array read out of range yields `undefined` (NaN after arithmetic),
    modelled by `List.getD _ _ 0`; a typed-array write out of range is silently
    ignored, modelled by `List.set` (which is the identity out of range).
  * in-place loops are modelled by explicit state-passing recursion;
  * functions that can throw are modelled with `Except DspError`.

Sources embedded: src/core/fft.ts (Radix2Fft, buildBitReverse, buildTwiddles,
complex vector arithmetic), src/xform/fourier.ts (FFT facade, createWindow,
applyWindow, magnitude, phase, binFrequencies), src/public/spectrum.ts
(spectrum, buildFrame, scaleAmplitudeOneSided, scaleAmplitudeTwoSided,
findPeak).
-/

namespace PragmaDsp

open scoped BigOperators

/-! ### Bit reversal (src/core/fft.ts, buildBitReverse)

The inner loop of `buildBitReverse` is
`for b in [0,bits): y = (y << 1) | (x & 1); x >>= 1`.
`bitRevLoop` is that loop with accumulator `y`; `bitRev bits i` is the
table entry `rev[i]`. -/

def bitRevLoop : ℕ → ℕ → ℕ → ℕ
  | 0, _, y => y
  | b + 1, x, y => bitRevLoop b (x / 2) (2 * y + x % 2)

def bitRev (bits i : ℕ) : ℕ := bitRevLoop bits i 0

/-- The accumulator of the bit-reversal loop just prepends already-reversed
bits: `bitRevLoop b x y = y * 2^b + bitRev b x`. -/
lemma bitRevLoop_acc (b : ℕ) : ∀ x y, bitRevLoop b x y = y * 2 ^ b + bitRev b x := by
  induction b with
  | zero => intro x y; simp [bitRevLoop, bitRev]
  | succ b ih =>
      intro x y
      have h1 : bitRevLoop (b + 1) x y = bitRevLoop b (x / 2) (2 * y + x % 2) := rfl
      have h2 : bitRev (b + 1) x = bitRevLoop b (x / 2) (x % 2) := by
        simp [bitRev, bitRevLoop]
      rw [h1, ih (x / 2) (2 * y + x % 2), h2, ih (x / 2) (x % 2)]
      ring

/-- Unfolding one step of `bitRev`: the low bit of the input becomes the top
bit of the output. -/
lemma bitRev_succ (b x : ℕ) : bitRev (b + 1) x = x % 2 * 2 ^ b + bitRev b (x / 2) := by
  have h : bitRev (b + 1) x = bitRevLoop b (x / 2) (x % 2) := by
    simp [bitRev, bitRevLoop]
  rw [h, bitRevLoop_acc]

@[simp] lemma bitRev_zero (x : ℕ) : bitRev 0 x = 0 := rfl

/-- Every bit-reversal table entry is below the table size. -/
lemma bitRev_lt (b : ℕ) : ∀ x, bitRev b x < 2 ^ b := by
  induction b with
  | zero => intro x; simp [bitRev, bitRevLoop]
  | succ b ih =>
      intro x
      rw [bitRev_succ]
      have hx : x % 2 ≤ 1 := Nat.le_of_lt_succ (Nat.mod_lt _ (by norm_num))
      have h1 : x % 2 * 2 ^ b ≤ 2 ^ b := by
        calc x % 2 * 2 ^ b ≤ 1 * 2 ^ b := Nat.mul_le_mul_right _ hx
        _ = 2 ^ b := one_mul _
      have h2 := ih (x / 2)
      calc x % 2 * 2 ^ b + bitRev b (x / 2) < x % 2 * 2 ^ b + 2 ^ b := by omega
      _ ≤ 2 ^ b + 2 ^ b := by omega
      _ = 2 ^ (b + 1) := by ring

/-- The function `bitRev` only depends on the low `b` bits. -/
lemma bitRev_mod (b : ℕ) : ∀ x, bitRev b (x % 2 ^ b) = bitRev b x := by
  induction b with
  | zero => intro x; simp
  | succ b ih =>
      intro x
      rw [bitRev_succ, bitRev_succ]
      have e1 : x % 2 ^ (b + 1) % 2 = x % 2 := by
        conv_rhs => rw [← Nat.mod_mod_of_dvd x (dvd_pow_self 2 (Nat.succ_ne_zero b))]
      have e2 : x % 2 ^ (b + 1) / 2 = x / 2 % 2 ^ b := by
        rw [pow_succ', Nat.mod_mul_right_div_self]
      rw [e1, e2, ih (x / 2)]

/-- Top-bit-to-low-bit unfolding of `bitRev`, for inputs in range. -/
lemma bitRev_succ_top (b x : ℕ) (hx : x < 2 ^ (b + 1)) :
    bitRev (b + 1) x = 2 * bitRev b (x % 2 ^ b) + x / 2 ^ b := by
  induction b generalizing x with
  | zero =>
      rw [bitRev_succ]
      simp only [pow_zero, Nat.mod_one, bitRev_zero, Nat.div_one]
      omega
  | succ b ih =>
      have hx2 : x / 2 < 2 ^ (b + 1) := by
        rw [Nat.div_lt_iff_lt_mul (by norm_num)]
        calc x < 2 ^ (b + 1 + 1) := hx
        _ = 2 ^ (b + 1) * 2 := by ring
      have e1 : x % 2 ^ (b + 1) % 2 = x % 2 := by
        conv_rhs => rw [← Nat.mod_mod_of_dvd x (dvd_pow_self 2 (Nat.succ_ne_zero b))]
      have e2 : x % 2 ^ (b + 1) / 2 = x / 2 % 2 ^ b := by
        rw [pow_succ', Nat.mod_mul_right_div_self]
      have e3 : x / 2 / 2 ^ b = x / 2 ^ (b + 1) := by
        rw [Nat.div_div_eq_div_mul, ← pow_succ']
      calc bitRev (b + 1 + 1) x
          = x % 2 * 2 ^ (b + 1) + bitRev (b + 1) (x / 2) := bitRev_succ _ _
        _ = x % 2 * 2 ^ (b + 1) + (2 * bitRev b (x / 2 % 2 ^ b) + x / 2 / 2 ^ b) := by
            rw [ih (x / 2) hx2]
        _ = 2 * (x % 2 ^ (b + 1) % 2 * 2 ^ b + bitRev b (x % 2 ^ (b + 1) / 2)) + x / 2 ^ (b + 1) := by
            rw [e1, e2, e3]; ring
        _ = 2 * bitRev (b + 1) (x % 2 ^ (b + 1)) + x / 2 ^ (b + 1) := by rw [← bitRev_succ]

/-- Bit reversal is an involution on `[0, 2^b)`; this is what makes the
scatter pass `out[rev[i]] = in[i]` equivalent to `out[j] = in[rev[j]]`. -/
lemma bitRev_involutive (b : ℕ) : ∀ x, x < 2 ^ b → bitRev b (bitRev b x) = x := by
  induction b with
  | zero => intro x hx; interval_cases x; rfl
  | succ b ih =>
      intro x hx
      have hrev : bitRev b (x / 2) < 2 ^ b := bitRev_lt b (x / 2)
      have hx2 : x % 2 ≤ 1 := Nat.le_of_lt_succ (Nat.mod_lt _ (by norm_num))
      have hlt : x % 2 * 2 ^ b + bitRev b (x / 2) < 2 ^ (b + 1) := by
        have : (2 : ℕ) ^ (b + 1) = 2 ^ b + 2 ^ b := by ring
        nlinarith
      rw [bitRev_succ b x, bitRev_succ_top b _ hlt]
      have hmod : (x % 2 * 2 ^ b + bitRev b (x / 2)) % 2 ^ b = bitRev b (x / 2) := by
        rw [Nat.mul_comm, Nat.mul_add_mod]
        exact Nat.mod_eq_of_lt hrev
      have hdiv : (x % 2 * 2 ^ b + bitRev b (x / 2)) / 2 ^ b = x % 2 := by
        rw [Nat.add_comm, Nat.add_mul_div_right _ _ (pow_pos two_pos b), Nat.div_eq_of_lt hrev]
        omega
      have hx2' : x / 2 < 2 ^ b := by
        rw [Nat.div_lt_iff_lt_mul (by norm_num)]
        calc x < 2 ^ (b + 1) := hx
        _ = 2 ^ b * 2 := by ring
      rw [hmod, hdiv, ih (x / 2) hx2']
      omega

/-- Bit reversal is injective on `[0, 2^b)`. -/
lemma bitRev_injOn (b x y : ℕ) (hx : x < 2 ^ b) (hy : y < 2 ^ b)
    (h : bitRev b x = bitRev b y) : x = y := by
  have hx' := bitRev_involutive b x hx
  have hy' := bitRev_involutive b y hy
  rw [← hx', ← hy', h]

/-! ### Twiddle factors (src/core/fft.ts, buildTwiddles)

Stage `s` (1-indexed) of `buildTwiddles` stores, for `m = 2^s` and
`k < m/2`, the pair `(cos(-2πk/m), sin(-2πk/m))`. -/

noncomputable def twiddleCos (m k : ℕ) : ℝ := Real.cos (-2 * Real.pi * k / m)

noncomputable def twiddleSin (m k : ℕ) : ℝ := Real.sin (-2 * Real.pi * k / m)

/-- The complex factor applied to the odd-half element in the butterfly:
`t = (cos ∓ i·sinSign·sin)·v` in the source computes `tReal`/`tImag` from
`cos[j]`, `sin[j]` and `sinSign = inverse ? -1 : 1`, which is exactly
multiplication by this complex number. -/
noncomputable def butterflyW (inverse : Bool) (m k : ℕ) : ℂ :=
  ⟨twiddleCos m k, (if inverse then (-1 : ℝ) else 1) * twiddleSin m k⟩

/-- The primitive root used at block size `m`: `exp(σ·2πi/m)` with `σ = -1`
for the forward transform and `σ = +1` for the inverse. -/
noncomputable def expw (inverse : Bool) (m : ℕ) : ℂ :=
  Complex.exp ((((if inverse then (1 : ℝ) else -1) * (2 * Real.pi) / m : ℝ)) * Complex.I)

lemma expw_pow (inv : Bool) (m k : ℕ) :
    expw inv m ^ k =
      Complex.exp ((((if inv then (1 : ℝ) else -1) * (2 * Real.pi * k) / m : ℝ)) * Complex.I) := by
  rw [expw, ← Complex.exp_nat_mul]
  congr 1
  push_cast
  ring

/-- The stored twiddle pair equals the corresponding power of the primitive
root (with the sine sign flipped for the inverse transform). -/
lemma butterflyW_eq (inv : Bool) (m k : ℕ) : butterflyW inv m k = expw inv m ^ k := by
  rw [expw_pow]
  apply Complex.ext
  · rw [Complex.exp_ofReal_mul_I_re]
    cases inv
    · show twiddleCos m k = Real.cos (-1 * (2 * Real.pi * k) / m)
      rw [twiddleCos]
      congr 1
      ring
    · show twiddleCos m k = Real.cos (1 * (2 * Real.pi * k) / m)
      rw [twiddleCos, show (-2 : ℝ) * Real.pi * k / m = -(2 * Real.pi * k / m) by ring,
        Real.cos_neg]
      congr 1
      ring
  · rw [Complex.exp_ofReal_mul_I_im]
    cases inv
    · show 1 * twiddleSin m k = Real.sin (-1 * (2 * Real.pi * k) / m)
      rw [twiddleSin, one_mul]
      congr 1
      ring
    · show -1 * twiddleSin m k = Real.sin (1 * (2 * Real.pi * k) / m)
      rw [twiddleSin, show (-2 : ℝ) * Real.pi * k / m = -(2 * Real.pi * k / m) by ring,
        Real.sin_neg]
      rw [show (1 : ℝ) * (2 * Real.pi * k) / m = 2 * Real.pi * k / m by ring]
      ring

lemma expw_sq (inv : Bool) (s : ℕ) : expw inv (2 ^ (s + 1)) ^ 2 = expw inv (2 ^ s) := by
  rw [expw_pow, expw]
  congr 2
  have h : (0 : ℝ) < 2 ^ s := by positivity
  have e : ((2 : ℕ) : ℝ) = (2 : ℝ) := by norm_num
  push_cast
  rw [pow_succ]
  field_simp
  ring

lemma expw_pow_self (inv : Bool) (m : ℕ) (hm : m ≠ 0) : expw inv m ^ m = 1 := by
  rw [expw_pow]
  have hm' : (m : ℝ) ≠ 0 := Nat.cast_ne_zero.mpr hm
  have hmc : (m : ℂ) ≠ 0 := Nat.cast_ne_zero.mpr hm
  cases inv
  · rw [← Complex.exp_int_mul_two_pi_mul_I (-1)]
    congr 1
    push_cast
    field_simp
    ring
  · rw [← Complex.exp_int_mul_two_pi_mul_I 1]
    congr 1
    push_cast
    field_simp

lemma expw_pow_half (inv : Bool) (s : ℕ) : expw inv (2 ^ (s + 1)) ^ (2 ^ s) = -1 := by
  rw [expw_pow]
  have h : (0 : ℝ) < 2 ^ s := by positivity
  have harg : ((if inv then (1 : ℝ) else -1) * (2 * Real.pi * (2 ^ s : ℕ)) / (2 ^ (s + 1) : ℕ) : ℝ)
      = (if inv then (1 : ℝ) else -1) * Real.pi := by
    push_cast
    rw [pow_succ]
    field_simp
    ring
  rw [harg]
  cases inv
  · simp only [Bool.false_eq_true, if_false]
    rw [show ((-1 : ℝ) * Real.pi : ℝ) * Complex.I = -((Real.pi : ℂ) * Complex.I) by push_cast; ring,
      Complex.exp_neg, Complex.exp_pi_mul_I]
    norm_num
  · simp only [if_true]
    rw [show ((1 : ℝ) * Real.pi : ℝ) * Complex.I = (Real.pi : ℂ) * Complex.I by push_cast; ring,
      Complex.exp_pi_mul_I]

lemma bitRev_two_mul (c b : ℕ) : bitRev (c + 1) (2 * b) = bitRev c b := by
  rw [bitRev_succ, Nat.mul_mod_right, Nat.mul_div_cancel_left _ (by norm_num : (0:ℕ) < 2)]
  simp

lemma bitRev_two_mul_add_one (c b : ℕ) :
    bitRev (c + 1) (2 * b + 1) = 2 ^ c + bitRev c b := by
  rw [bitRev_succ]
  have h1 : (2 * b + 1) % 2 = 1 := by omega
  have h2 : (2 * b + 1) / 2 = b := by omega
  rw [h1, h2, one_mul]

/-! ### The iterative radix-2 kernel (src/core/fft.ts, Radix2Fft.transform)

The in-place algorithm is modelled functionally.  The scatter pass writes
`out[rev[i]] = in[i]` for all `i < N`; since `bitRev bits` is an involution
on `[0, N)` (`bitRev_involutive`), entry `j` of the scattered array holds
`in[bitRev bits j]`.  Each butterfly stage writes every index of each block
exactly once, reading only the two indices of its own butterfly pair before
writing them, so the stage is the pointwise function `stageF`:  position
`p = k + j` (offset `j = p % m < half`) receives `u + t` and position
`p = k + j + half` (offset `p % m ≥ half`) receives `u - t`, with
`u = y[k+j]` and `t = W·y[k+j+half]`. -/

noncomputable def scatterF (bits : ℕ) (x : ℕ → ℂ) : ℕ → ℂ := fun j => x (bitRev bits j)

noncomputable def stageF (inverse : Bool) (m : ℕ) (y : ℕ → ℂ) : ℕ → ℂ := fun p =>
  if p % m < m / 2 then y p + butterflyW inverse m (p % m) * y (p + m / 2)
  else y (p - m / 2) - butterflyW inverse m (p % m - m / 2) * y p

/-- Stages `1..s` of the kernel, applied in increasing order (the source's
`for stage in [0, twiddles.length)` loop with `m = 2^(stage+1)`). -/
noncomputable def stagesF (inverse : Bool) : ℕ → (ℕ → ℂ) → ℕ → ℂ
  | 0, y => y
  | s + 1, y => stageF inverse (2 ^ (s + 1)) (stagesF inverse s y)

/-- Model of `Radix2Fft.transform` for a plan of size `N = 2^n`: bit-reverse scatter,
`n` butterfly stages, and — only for the inverse — one final multiplication
of every element by `1/N`. -/
noncomputable def fftTransform (n : ℕ) (inverse : Bool) (x : ℕ → ℂ) : ℕ → ℂ := fun p =>
  if inverse then stagesF inverse n (scatterF n x) p * (1 / (2 ^ n : ℂ))
  else stagesF inverse n (scatterF n x) p

/-- Model of `Radix2Fft.forward` on a real input: the imaginary part is scattered
as zero (`inputImag` is `null`). -/
noncomputable def fftForward (n : ℕ) (x : ℕ → ℝ) : ℕ → ℂ :=
  fftTransform n false fun i => (x i : ℂ)

noncomputable def fftForwardComplex (n : ℕ) (x : ℕ → ℂ) : ℕ → ℂ := fftTransform n false x

noncomputable def fftInverse (n : ℕ) (x : ℕ → ℂ) : ℕ → ℂ := fftTransform n true x

/-- Reference DFT, written from the spec's formula
`X[k] = Σ_{i<N} x[i]·exp(-2πi·k·i/N)` (the naive O(N²) evaluation the claim
compares against). -/
noncomputable def dftRef (N : ℕ) (x : ℕ → ℂ) (k : ℕ) : ℂ :=
  ∑ i ∈ Finset.range N, x i * Complex.exp ((-2 : ℂ) * Real.pi * Complex.I * k * i / N)

lemma sum_range_even_odd {M : Type*} [AddCommMonoid M] (f : ℕ → M) (k : ℕ) :
    ∑ t ∈ Finset.range (2 * k), f t =
      (∑ u ∈ Finset.range k, f (2 * u)) + ∑ u ∈ Finset.range k, f (2 * u + 1) := by
  induction k with
  | zero => simp
  | succ k ih =>
      rw [show 2 * (k + 1) = 2 * k + 1 + 1 by ring, Finset.sum_range_succ, Finset.sum_range_succ,
        ih, Finset.sum_range_succ, Finset.sum_range_succ]
      rw [show 2 * k + 1 = 2 * k + 1 by rfl]
      abel

/-- The standard decimation-in-time invariant for the iterative kernel:
after the first `s` stages, block `b` of size `2^s` holds the `2^s`-point
transform of the input subsequence with stride `2^(n-s)` and offset
`bitRev (n-s) b`. -/
lemma stagesF_spec (inv : Bool) (n : ℕ) (x : ℕ → ℂ) :
    ∀ s, s ≤ n → ∀ b q, b < 2 ^ (n - s) → q < 2 ^ s →
      stagesF inv s (scatterF n x) (b * 2 ^ s + q) =
        ∑ t ∈ Finset.range (2 ^ s),
          x (t * 2 ^ (n - s) + bitRev (n - s) b) * expw inv (2 ^ s) ^ (q * t) := by
  intro s
  induction s with
  | zero =>
      intro _ b q _ hq
      interval_cases q
      simp [stagesF, scatterF]
  | succ s ih =>
      intro hs b q hb hq
      have hsn : s ≤ n := le_trans (Nat.le_succ s) hs
      set c := n - (s + 1) with hcdef
      have hc : n - s = c + 1 := by omega
      have hhalf : 2 ^ (s + 1) / 2 = 2 ^ s := by
        rw [pow_succ, Nat.mul_div_cancel _ (by norm_num : (0:ℕ) < 2)]
      have hmod : (b * 2 ^ (s + 1) + q) % 2 ^ (s + 1) = q := by
        rw [Nat.mul_comm b (2 ^ (s + 1)), Nat.mul_add_mod]
        exact Nat.mod_eq_of_lt hq
      have hb2 : 2 * b < 2 ^ (n - s) := by
        rw [hc, pow_succ]
        omega
      have hb21 : 2 * b + 1 < 2 ^ (n - s) := by
        rw [hc, pow_succ]
        omega
      have hsplit : (2 : ℕ) ^ (s + 1) = 2 * 2 ^ s := by rw [pow_succ]; ring
      have hW2 : expw inv (2 ^ (s + 1)) ^ 2 = expw inv (2 ^ s) := expw_sq inv s
      have hWfull : expw inv (2 ^ (s + 1)) ^ (2 ^ (s + 1)) = 1 :=
        expw_pow_self inv (2 ^ (s + 1)) (by positivity)
      have hWhalf : expw inv (2 ^ (s + 1)) ^ (2 ^ s) = -1 := expw_pow_half inv s
      have hrange : Finset.range (2 ^ (s + 1)) = Finset.range (2 * 2 ^ s) := by
        rw [hsplit]
      show stageF inv (2 ^ (s + 1)) (stagesF inv s (scatterF n x)) (b * 2 ^ (s + 1) + q) = _
      rw [stageF]
      simp only [hmod, hhalf]
      by_cases hql : q < 2 ^ s
      · rw [if_pos hql]
        have hp1 : b * 2 ^ (s + 1) + q = 2 * b * 2 ^ s + q := by
          rw [pow_succ]
          ring
        have hp2 : b * 2 ^ (s + 1) + q + 2 ^ s = (2 * b + 1) * 2 ^ s + q := by
          rw [pow_succ]
          ring
        rw [hp2, hp1, ih hsn (2 * b) q hb2 hql, ih hsn (2 * b + 1) q hb21 hql]
        rw [hrange, sum_range_even_odd]
        congr 1
        · apply Finset.sum_congr rfl
          intro u _
          have hidx : 2 * u * 2 ^ c + bitRev c b = u * 2 ^ (n - s) + bitRev (n - s) (2 * b) := by
            rw [hc, bitRev_two_mul, pow_succ]
            ring
          have hw : expw inv (2 ^ (s + 1)) ^ (q * (2 * u)) = expw inv (2 ^ s) ^ (q * u) := by
            calc expw inv (2 ^ (s + 1)) ^ (q * (2 * u))
                = (expw inv (2 ^ (s + 1)) ^ 2) ^ (q * u) := by
                  rw [← pow_mul]
                  congr 1
                  ring
              _ = expw inv (2 ^ s) ^ (q * u) := by rw [hW2]
          rw [hc] at hidx
          rw [hidx, hw, hc]
        · rw [butterflyW_eq, Finset.mul_sum]
          apply Finset.sum_congr rfl
          intro u _
          have hidx : (2 * u + 1) * 2 ^ c + bitRev c b
              = u * 2 ^ (n - s) + bitRev (n - s) (2 * b + 1) := by
            rw [hc, bitRev_two_mul_add_one, pow_succ]
            ring
          have hw : expw inv (2 ^ (s + 1)) ^ (q * (2 * u + 1))
              = expw inv (2 ^ (s + 1)) ^ q * expw inv (2 ^ s) ^ (q * u) := by
            calc expw inv (2 ^ (s + 1)) ^ (q * (2 * u + 1))
                = expw inv (2 ^ (s + 1)) ^ (2 * (q * u)) * expw inv (2 ^ (s + 1)) ^ q := by
                  rw [← pow_add]
                  congr 1
                  ring
              _ = (expw inv (2 ^ (s + 1)) ^ 2) ^ (q * u) * expw inv (2 ^ (s + 1)) ^ q := by
                  rw [pow_mul]
              _ = expw inv (2 ^ (s + 1)) ^ q * expw inv (2 ^ s) ^ (q * u) := by
                  rw [hW2]
                  ring
          rw [hc] at hidx
          rw [hidx, hw, hc]
          ring
      · rw [if_neg hql]
        push_neg at hql
        set j := q - 2 ^ s with hjdef
        have hj : j < 2 ^ s := by
          have hq' := hq
          rw [hsplit] at hq'
          omega
        have hqj : q = j + 2 ^ s := by omega
        have hp1 : b * 2 ^ (s + 1) + q - 2 ^ s = 2 * b * 2 ^ s + j := by
          rw [hqj, pow_succ]
          have e : b * (2 ^ s * 2) + (j + 2 ^ s) - 2 ^ s = b * (2 ^ s * 2) + j := by omega
          rw [e]
          ring
        have hp2 : b * 2 ^ (s + 1) + q = (2 * b + 1) * 2 ^ s + j := by
          rw [hqj, pow_succ]
          ring
        rw [hp1, hp2, ih hsn (2 * b) j hb2 hj, ih hsn (2 * b + 1) j hb21 hj]
        rw [hrange, sum_range_even_odd]
        rw [sub_eq_add_neg]
        congr 1
        · apply Finset.sum_congr rfl
          intro u _
          have hidx : 2 * u * 2 ^ c + bitRev c b = u * 2 ^ (n - s) + bitRev (n - s) (2 * b) := by
            rw [hc, bitRev_two_mul, pow_succ]
            ring
          have hw : expw inv (2 ^ (s + 1)) ^ (q * (2 * u)) = expw inv (2 ^ s) ^ (j * u) := by
            calc expw inv (2 ^ (s + 1)) ^ (q * (2 * u))
                = expw inv (2 ^ (s + 1)) ^ (2 * (j * u)) *
                    expw inv (2 ^ (s + 1)) ^ (2 ^ (s + 1) * u) := by
                  rw [← pow_add, hqj]
                  congr 1
                  ring
              _ = (expw inv (2 ^ (s + 1)) ^ 2) ^ (j * u) *
                    (expw inv (2 ^ (s + 1)) ^ 2 ^ (s + 1)) ^ u := by
                  rw [pow_mul (expw inv (2 ^ (s + 1))) 2 (j * u),
                    pow_mul (expw inv (2 ^ (s + 1))) (2 ^ (s + 1)) u]
              _ = expw inv (2 ^ s) ^ (j * u) * 1 ^ u := by rw [hW2, hWfull]
              _ = expw inv (2 ^ s) ^ (j * u) := by rw [one_pow, mul_one]
          rw [hc] at hidx
          rw [hidx, hw, hc]
        · rw [butterflyW_eq, Finset.mul_sum, ← Finset.sum_neg_distrib]
          apply Finset.sum_congr rfl
          intro u _
          have hidx : (2 * u + 1) * 2 ^ c + bitRev c b
              = u * 2 ^ (n - s) + bitRev (n - s) (2 * b + 1) := by
            rw [hc, bitRev_two_mul_add_one, pow_succ]
            ring
          have hw : expw inv (2 ^ (s + 1)) ^ (q * (2 * u + 1))
              = -(expw inv (2 ^ (s + 1)) ^ j * expw inv (2 ^ s) ^ (j * u)) := by
            calc expw inv (2 ^ (s + 1)) ^ (q * (2 * u + 1))
                = expw inv (2 ^ (s + 1)) ^ (2 * (j * u)) * expw inv (2 ^ (s + 1)) ^ j *
                    expw inv (2 ^ (s + 1)) ^ (2 ^ (s + 1) * u) *
                    expw inv (2 ^ (s + 1)) ^ (2 ^ s) := by
                  rw [← pow_add, ← pow_add, ← pow_add, hqj]
                  congr 1
                  ring
              _ = (expw inv (2 ^ (s + 1)) ^ 2) ^ (j * u) * expw inv (2 ^ (s + 1)) ^ j *
                    (expw inv (2 ^ (s + 1)) ^ 2 ^ (s + 1)) ^ u *
                    expw inv (2 ^ (s + 1)) ^ (2 ^ s) := by
                  rw [pow_mul (expw inv (2 ^ (s + 1))) 2 (j * u),
                    pow_mul (expw inv (2 ^ (s + 1))) (2 ^ (s + 1)) u]
              _ = expw inv (2 ^ s) ^ (j * u) * expw inv (2 ^ (s + 1)) ^ j * 1 ^ u * (-1) := by
                  rw [hW2, hWfull, hWhalf]
              _ = -(expw inv (2 ^ (s + 1)) ^ j * expw inv (2 ^ s) ^ (j * u)) := by ring
          rw [hc] at hidx
          rw [hidx, hw, hc]
          ring

/-- At `s = n` the invariant gives the full (unnormalized) transform:
entry `k` is `Σ_t x[t]·w^(k·t)` with `w = expw inv (2^n)`. -/
lemma stagesF_full (inv : Bool) (n : ℕ) (x : ℕ → ℂ) (k : ℕ) (hk : k < 2 ^ n) :
    stagesF inv n (scatterF n x) k =
      ∑ t ∈ Finset.range (2 ^ n), x t * expw inv (2 ^ n) ^ (k * t) := by
  have h := stagesF_spec inv n x n le_rfl 0 k (by simp) hk
  simpa using h

lemma fftForward_apply (n : ℕ) (x : ℕ → ℝ) (k : ℕ) (hk : k < 2 ^ n) :
    fftForward n x k =
      ∑ t ∈ Finset.range (2 ^ n), (x t : ℂ) * expw false (2 ^ n) ^ (k * t) := by
  rw [fftForward, fftTransform]
  simp only [Bool.false_eq_true, if_false]
  exact stagesF_full false n _ k hk

/-- C1.  For every power-of-two size `N = 2^n` and every real input `x`,
`forward(x)` agrees with the naive reference DFT
`X[k] = Σ_{i<N} x[i]·exp(-2πi·k·i/N)` on every bin `k < N` — exactly, in the
exact-real model (hence in particular within any positive tolerance on both
the real and the imaginary part). -/
theorem fftForward_eq_dftRef (n : ℕ) (x : ℕ → ℝ) (k : ℕ) (hk : k < 2 ^ n) :
    fftForward n x k = dftRef (2 ^ n) (fun i => (x i : ℂ)) k := by
  rw [fftForward_apply n x k hk, dftRef]
  apply Finset.sum_congr rfl
  intro t _
  congr 1
  rw [expw_pow]
  simp only [Bool.false_eq_true, if_false]
  congr 1
  push_cast
  ring

/-- Witness for C1 at the concrete plan size `N = 2^0 = 1`, bin `0`. -/
theorem fftForward_eq_dftRef_witness :
    (0 : ℕ) < 2 ^ 0 ∧
      fftForward 0 (fun _ => (1 : ℝ)) 0 = dftRef (2 ^ 0) (fun _ => (1 : ℂ)) 0 := by
  refine ⟨by norm_num, ?_⟩
  exact fftForward_eq_dftRef 0 (fun _ => (1 : ℝ)) 0 (by norm_num)

/-- Orthogonality of the forward and inverse roots: summing
`w^(k·t)·ζ^(j·k)` over a full period cancels unless `j = t`. -/
lemma sum_root_orthogonal (n j t : ℕ) (hj : j < 2 ^ n) (ht : t < 2 ^ n) :
    ∑ k ∈ Finset.range (2 ^ n), expw false (2 ^ n) ^ (k * t) * expw true (2 ^ n) ^ (j * k)
      = if j = t then ((2 ^ n : ℕ) : ℂ) else 0 := by
  have hN0 : ((2 ^ n : ℕ) : ℝ) ≠ 0 := by positivity
  have hterm : ∀ k : ℕ,
      expw false (2 ^ n) ^ (k * t) * expw true (2 ^ n) ^ (j * k)
        = Complex.exp ((((2 * Real.pi * ((j : ℝ) - t)) / (2 ^ n : ℕ) : ℝ)) * Complex.I) ^ k := by
    intro k
    rw [expw_pow, expw_pow, ← Complex.exp_add, ← Complex.exp_nat_mul]
    simp only [Bool.false_eq_true, if_false, if_true]
    congr 1
    push_cast
    field_simp
    ring
  rw [Finset.sum_congr rfl fun k _ => hterm k]
  by_cases hjt : j = t
  · subst hjt
    rw [if_pos rfl]
    have : (((2 * Real.pi * ((j : ℝ) - j)) / (2 ^ n : ℕ) : ℝ)) = 0 := by
      rw [sub_self]
      ring_nf
    rw [this]
    simp
  · rw [if_neg hjt]
    set θ : ℝ := (2 * Real.pi * ((j : ℝ) - t)) / (2 ^ n : ℕ) with hθdef
    set ρ : ℂ := Complex.exp ((θ : ℝ) * Complex.I) with hρdef
    have hρN : ρ ^ (2 ^ n) = 1 := by
      rw [hρdef, ← Complex.exp_nat_mul, ← Complex.exp_int_mul_two_pi_mul_I ((j : ℤ) - t)]
      congr 1
      rw [hθdef]
      push_cast
      field_simp
      ring
    have hρ1 : ρ ≠ 1 := by
      intro h
      rw [hρdef, Complex.exp_eq_one_iff] at h
      obtain ⟨m, hm⟩ := h
      have hm' : ((θ : ℝ) : ℂ) * Complex.I = ((2 * Real.pi * m : ℝ) : ℂ) * Complex.I := by
        rw [hm]
        push_cast
        ring
      have hθm : θ = 2 * Real.pi * m :=
        Complex.ofReal_inj.mp (mul_right_cancel₀ Complex.I_ne_zero hm')
      have hpi : (0 : ℝ) < 2 * Real.pi := by positivity
      have hjt' : (j : ℝ) - t = m * (2 ^ n : ℕ) := by
        rw [hθdef, div_eq_iff (by exact_mod_cast hN0 : (((2 : ℕ) ^ n : ℕ) : ℝ) ≠ 0)] at hθm
        have h' : 2 * Real.pi * ((j : ℝ) - t) = 2 * Real.pi * ((m : ℝ) * ((2 ^ n : ℕ) : ℝ)) := by
          rw [hθm]
          ring
        exact mul_left_cancel₀ (ne_of_gt hpi) h'
      have habs : |(j : ℝ) - t| < ((2 ^ n : ℕ) : ℝ) := by
        rw [abs_sub_lt_iff]
        constructor
        · have : (j : ℝ) < ((2 ^ n : ℕ) : ℝ) := by exact_mod_cast hj
          have ht0 : (0 : ℝ) ≤ (t : ℝ) := Nat.cast_nonneg t
          linarith
        · have : (t : ℝ) < ((2 ^ n : ℕ) : ℝ) := by exact_mod_cast ht
          have hj0 : (0 : ℝ) ≤ (j : ℝ) := Nat.cast_nonneg j
          linarith
      have hm0 : m ≠ 0 := by
        intro h0
        rw [h0] at hjt'
        push_cast at hjt'
        have : (j : ℝ) = t := by linarith
        exact hjt (Nat.cast_injective this)
      have hm1 : (1 : ℝ) ≤ |(m : ℝ)| := by
        have := Int.one_le_abs (by exact_mod_cast hm0 : m ≠ 0)
        calc (1 : ℝ) = ((1 : ℤ) : ℝ) := by norm_num
        _ ≤ ((|m| : ℤ) : ℝ) := by exact_mod_cast this
        _ = |(m : ℝ)| := by push_cast; rfl
      have hNpos : (0 : ℝ) < ((2 ^ n : ℕ) : ℝ) := by positivity
      have : ((2 ^ n : ℕ) : ℝ) ≤ |(j : ℝ) - t| := by
        rw [hjt', abs_mul, abs_of_pos hNpos]
        nlinarith
      linarith
    rw [geom_sum_eq hρ1, hρN]
    simp

/-- C2.  `inverse` multiplies every element once by `1/N` at the end (its
only normalization; the forward pass is the raw sum, cf. C1), and with that
scaling the round trip on any real input of the plan size is exact in the
exact-real model: the real part recovers `x[j]` and the imaginary part is
`0` (hence within any positive tolerance, in particular 1e-9). -/
theorem inverse_forward_roundtrip (n : ℕ) (x : ℕ → ℝ) (j : ℕ) (hj : j < 2 ^ n) :
    (∀ y : ℕ → ℂ, fftInverse n y j =
      (∑ t ∈ Finset.range (2 ^ n), y t * expw true (2 ^ n) ^ (j * t)) * (1 / (2 ^ n : ℂ))) ∧
    (fftInverse n (fftForward n x) j).re = x j ∧
      (fftInverse n (fftForward n x) j).im = 0 := by
  refine ⟨?_, ?_⟩
  case refine_1 =>
    intro y
    rw [fftInverse, fftTransform]
    simp only [if_true]
    rw [stagesF_full true n y j hj]
  case refine_2 =>
    have hN0 : ((2 ^ n : ℕ) : ℂ) ≠ 0 := Nat.cast_ne_zero.mpr (pow_ne_zero n two_ne_zero)
    have key : fftInverse n (fftForward n x) j = ((x j : ℝ) : ℂ) := by
      rw [fftInverse, fftTransform]
      simp only [if_true]
      rw [stagesF_full true n _ j hj]
      have hrw : ∀ k ∈ Finset.range (2 ^ n),
          fftForward n x k * expw true (2 ^ n) ^ (j * k)
            = ∑ t ∈ Finset.range (2 ^ n),
                (x t : ℂ) * (expw false (2 ^ n) ^ (k * t) * expw true (2 ^ n) ^ (j * k)) := by
        intro k hk
        rw [fftForward_apply n x k (Finset.mem_range.mp hk), Finset.sum_mul]
        apply Finset.sum_congr rfl
        intro t _
        ring
      rw [Finset.sum_congr rfl hrw, Finset.sum_comm]
      have hin : ∀ t ∈ Finset.range (2 ^ n),
          ∑ k ∈ Finset.range (2 ^ n),
              (x t : ℂ) * (expw false (2 ^ n) ^ (k * t) * expw true (2 ^ n) ^ (j * k))
            = (x t : ℂ) * (if j = t then ((2 ^ n : ℕ) : ℂ) else 0) := by
        intro t ht
        rw [← Finset.mul_sum, sum_root_orthogonal n j t hj (Finset.mem_range.mp ht)]
      rw [Finset.sum_congr rfl hin]
      have hsum : ∑ t ∈ Finset.range (2 ^ n),
          (x t : ℂ) * (if j = t then ((2 ^ n : ℕ) : ℂ) else 0)
            = (x j : ℂ) * ((2 ^ n : ℕ) : ℂ) := by
        rw [Finset.sum_eq_single j]
        · rw [if_pos rfl]
        · intro t _ htj
          rw [if_neg fun h => htj h.symm, mul_zero]
        · intro hj'
          exact absurd (Finset.mem_range.mpr hj) hj'
      rw [hsum]
      push_cast
      field_simp
    rw [key]
    exact ⟨Complex.ofReal_re _, Complex.ofReal_im _⟩

/-- Witness for C2 at plan size `N = 1`, input `x ≡ 1`, index `0`. -/
theorem inverse_forward_roundtrip_witness :
    (0 : ℕ) < 2 ^ 0 ∧
      (fftInverse 0 (fftForward 0 fun _ => (1 : ℝ)) 0).re = 1 ∧
        (fftInverse 0 (fftForward 0 fun _ => (1 : ℝ)) 0).im = 0 := by
  refine ⟨by norm_num, ?_⟩
  exact (inverse_forward_roundtrip 0 (fun _ => (1 : ℝ)) 0 (by norm_num)).2

/-! ### Plan tables as lists (src/core/fft.ts, constructor of Radix2Fft) -/

/-- The bit-reversal table `rev` of a plan of size `2^bits`
(the source computes `bits = Math.round(Math.log2(size))`, exact for the
power-of-two sizes the constructor admits). -/
def buildBitReverse (bits : ℕ) : List ℕ :=
  (List.range (2 ^ bits)).map fun i => bitRev bits i

/-- The per-stage twiddle tables: the source loops `stage = 1..stages` with
`m = 2^stage`, `half = m >> 1`, storing `cos(-2πk/m)` and `sin(-2πk/m)` for
`k < half`.  Indexing here is by `stage0 = stage - 1` (the list position). -/
noncomputable def buildTwiddles (stages : ℕ) : List (List ℝ × List ℝ) :=
  (List.range stages).map fun stage0 =>
    ((List.range (2 ^ (stage0 + 1) / 2)).map fun k => twiddleCos (2 ^ (stage0 + 1)) k,
     (List.range (2 ^ (stage0 + 1) / 2)).map fun k => twiddleSin (2 ^ (stage0 + 1)) k)

lemma getD_map_range {β : Type*} (N i : ℕ) (f : ℕ → β) (d : β) (h : i < N) :
    ((List.range N).map f).getD i d = f i := by
  rw [List.getD_eq_getElem?_getD, List.getElem?_map, List.getElem?_range h]
  rfl

/-- C7.  For every power-of-two size `2^n`: the bit-reversal table has one
entry per index, every entry is below the size, distinct indices map to
distinct entries (so `rev` is a permutation of `[0, 2^n)`), there are
`log2(size) = n` twiddle tables, and stage `s ∈ [1, n]` has exactly
`2^(s-1)` entries, the pair `(cos(-2πk/m), sin(-2πk/m))` for `m = 2^s`. -/
theorem plan_tables_invariants (n : ℕ) :
    (buildBitReverse n).length = 2 ^ n ∧
    (∀ i, i < 2 ^ n → (buildBitReverse n).getD i 0 < 2 ^ n) ∧
    (∀ i j, i < 2 ^ n → j < 2 ^ n →
      (buildBitReverse n).getD i 0 = (buildBitReverse n).getD j 0 → i = j) ∧
    (buildTwiddles n).length = n ∧
    (∀ s, 1 ≤ s → s ≤ n →
      ((buildTwiddles n).getD (s - 1) ([], [])).1.length = 2 ^ (s - 1) ∧
      ((buildTwiddles n).getD (s - 1) ([], [])).2.length = 2 ^ (s - 1) ∧
      (∀ k, k < 2 ^ (s - 1) →
        ((buildTwiddles n).getD (s - 1) ([], [])).1.getD k 0
            = Real.cos (-2 * Real.pi * k / (2 : ℝ) ^ s) ∧
        ((buildTwiddles n).getD (s - 1) ([], [])).2.getD k 0
            = Real.sin (-2 * Real.pi * k / (2 : ℝ) ^ s))) := by
  refine ⟨by simp [buildBitReverse], ?_, ?_, by simp [buildTwiddles], ?_⟩
  · intro i hi
    rw [buildBitReverse, getD_map_range _ _ _ _ hi]
    exact bitRev_lt n i
  · intro i j hi hj h
    rw [buildBitReverse, getD_map_range _ _ _ _ hi, getD_map_range _ _ _ _ hj] at h
    exact bitRev_injOn n i j hi hj h
  · intro s hs1 hsn
    obtain ⟨s0, rfl⟩ : ∃ s0, s = s0 + 1 := ⟨s - 1, by omega⟩
    have hs0 : s0 < n := by omega
    have hentry : (buildTwiddles n).getD (s0 + 1 - 1) ([], [])
        = ((List.range (2 ^ (s0 + 1) / 2)).map fun k => twiddleCos (2 ^ (s0 + 1)) k,
           (List.range (2 ^ (s0 + 1) / 2)).map fun k => twiddleSin (2 ^ (s0 + 1)) k) := by
      rw [show s0 + 1 - 1 = s0 by omega, buildTwiddles, getD_map_range _ _ _ _ hs0]
    have hhalf : 2 ^ (s0 + 1) / 2 = 2 ^ s0 := by
      rw [pow_succ, Nat.mul_div_cancel _ (by norm_num : (0:ℕ) < 2)]
    have hlen : s0 + 1 - 1 = s0 := by omega
    refine ⟨?_, ?_, ?_⟩
    · rw [hentry]
      simp [hhalf, hlen]
    · rw [hentry]
      simp [hhalf, hlen]
    · intro k hk
      rw [hlen] at hk
      have hk' : k < 2 ^ (s0 + 1) / 2 := by rw [hhalf]; exact hk
      constructor
      · rw [hentry]
        show ((List.range (2 ^ (s0 + 1) / 2)).map fun k => twiddleCos (2 ^ (s0 + 1)) k).getD k 0 = _
        rw [getD_map_range _ _ _ _ hk', twiddleCos]
        congr 1
        push_cast
        ring
      · rw [hentry]
        show ((List.range (2 ^ (s0 + 1) / 2)).map fun k => twiddleSin (2 ^ (s0 + 1)) k).getD k 0 = _
        rw [getD_map_range _ _ _ _ hk', twiddleSin]
        congr 1
        push_cast
        ring

/-- Witness for C7 at a concrete plan: size `2^2 = 4`, stage `2`, entry `1`. -/
theorem plan_tables_invariants_witness :
    (buildBitReverse 2).getD 1 0 < 2 ^ 2 ∧
    ((buildTwiddles 2).getD 1 ([], [])).1.length = 2 ^ 1 ∧
    ((buildTwiddles 2).getD 1 ([], [])).1.getD 1 0 = Real.cos (-2 * Real.pi * 1 / (2 : ℝ) ^ 2) := by
  have h := plan_tables_invariants 2
  refine ⟨h.2.1 1 (by norm_num), ?_, ?_⟩
  · have h1 := (h.2.2.2.2 2 (by norm_num) (by norm_num)).1
    norm_num at h1 ⊢
    exact h1
  · have h2 := ((h.2.2.2.2 2 (by norm_num) (by norm_num)).2.2 1 (by norm_num)).1
    norm_num at h2 ⊢
    exact h2

/-! ### Error kinds and split buffers

The source throws plain `Error` values; the spec's error vocabulary
(§6 of spec.md) kinds them as below.  `CArr` is the split `{ real, imag }`
buffer shape (`ComplexArray` in src/core/fft.ts). -/

inductive DspError where
  | invalidSize
  | invalidLength
  | invalidArgument
  | unknownWindow
  deriving DecidableEq

structure CArr (α : Type) where
  real : List α
  imag : List α
  deriving DecidableEq

/-- Model of `createComplexArray(size)` with the default `fill = 0`. -/
def createComplexArray {α : Type} [Zero α] (size : ℕ) : CArr α :=
  ⟨List.replicate size 0, List.replicate size 0⟩

lemma getD_set_lt {α : Type} (l : List α) (i : ℕ) (a d : α) (h : i < l.length) :
    (l.set i a).getD i d = a := by
  rw [List.getD_eq_getElem?_getD, List.getElem?_set_eq_of_lt a h]
  rfl

lemma getD_set_ne {α : Type} (l : List α) {i j : ℕ} (a d : α) (h : i ≠ j) :
    (l.set i a).getD j d = l.getD j d := by
  rw [List.getD_eq_getElem?_getD, List.getElem?_set_ne h, ← List.getD_eq_getElem?_getD]

/-- The loop `for i in [0, n): dst[i] = f(i)` on a typed array: out-of-range
stores are silently ignored (`List.set` is the identity out of range). -/
def writeSeq {α : Type} (dst : List α) (f : ℕ → α) : ℕ → List α
  | 0 => dst
  | n + 1 => (writeSeq dst f n).set n (f n)

@[simp] lemma writeSeq_length {α : Type} (dst : List α) (f : ℕ → α) (n : ℕ) :
    (writeSeq dst f n).length = dst.length := by
  induction n with
  | zero => rfl
  | succ n ih => simp [writeSeq, ih]

lemma getD_writeSeq {α : Type} (dst : List α) (f : ℕ → α) (n j : ℕ) (d : α) :
    (writeSeq dst f n).getD j d =
      if j < n ∧ j < dst.length then f j else dst.getD j d := by
  induction n with
  | zero =>
      simp [writeSeq]
  | succ n ih =>
      show ((writeSeq dst f n).set n (f n)).getD j d = _
      by_cases hj : j = n
      · subst hj
        by_cases hlen : j < dst.length
        · rw [getD_set_lt _ _ _ _ (by rw [writeSeq_length]; exact hlen)]
          rw [if_pos ⟨Nat.lt_succ_self j, hlen⟩]
        · rw [List.set_eq_of_length_le (by rw [writeSeq_length]; omega), ih]
          rw [if_neg (by omega), if_neg (by omega)]
      · rw [getD_set_ne _ _ _ (fun h => hj h.symm), ih]
        by_cases h1 : j < n ∧ j < dst.length
        · rw [if_pos h1, if_pos ⟨by omega, h1.2⟩]
        · rw [if_neg h1, if_neg (by omega)]

/-! ### The transform at the buffer level (src/core/fft.ts, Radix2Fft)

For the buffer-level claims the in-place algorithm is modelled write by
write, on the result buffer itself.  A read past the end of a typed array
yields `undefined`, which any arithmetic turns into NaN; buffer entries are
therefore `Option ℝ`, with `none` standing for NaN and every arithmetic
helper propagating it.  A store past the end of a typed array is silently
dropped (`List.set` is the identity out of range).  Caller-supplied buffers
and inputs are modelled NaN-free (`List ℝ`), lifted entrywise by `liftC`. -/

def oAdd (a b : Option ℝ) : Option ℝ :=
  match a, b with
  | some x, some y => some (x + y)
  | _, _ => none

def oSub (a b : Option ℝ) : Option ℝ :=
  match a, b with
  | some x, some y => some (x - y)
  | _, _ => none

/-- Left multiplication by a genuine (non-NaN) coefficient, NaN-propagating. -/
def oMulC (c : ℝ) (v : Option ℝ) : Option ℝ := v.map fun x => c * x

/-- Right multiplication by a genuine coefficient (`v * scale`), NaN-propagating. -/
def oMulR (v : Option ℝ) (c : ℝ) : Option ℝ := v.map fun x => x * c

@[simp] lemma oAdd_some (a b : ℝ) : oAdd (some a) (some b) = some (a + b) := rfl

@[simp] lemma oSub_some (a b : ℝ) : oSub (some a) (some b) = some (a - b) := rfl

@[simp] lemma oMulC_some (c a : ℝ) : oMulC c (some a) = some (c * a) := rfl

@[simp] lemma oMulR_some (a c : ℝ) : oMulR (some a) c = some (a * c) := rfl

/-- A NaN-free buffer viewed as a possibly-NaN one. -/
def liftC (o : CArr ℝ) : CArr (Option ℝ) := ⟨o.real.map some, o.imag.map some⟩

/-- The scatter pass `for i in [0, K): out[rev[i]] = in[i]` (the imaginary
part from `inputImag`, or `0` when it is `null`). -/
def scatterO (bits K : ℕ) (xre xim : ℕ → ℝ) (st : CArr (Option ℝ)) : CArr (Option ℝ) :=
  (List.range K).foldl
    (fun st i =>
      ⟨st.real.set (bitRev bits i) (some (xre i)),
       st.imag.set (bitRev bits i) (some (xim i))⟩) st

/-- The value `tReal` of one butterfly at position `p = k + j` (so the
twiddle index is `j = p % m`):
`cos[j]*outReal[p+half] - sinSign*sin[j]*outImag[p+half]`. -/
noncomputable def tReO (inverse : Bool) (m : ℕ) (st : CArr (Option ℝ)) (p : ℕ) : Option ℝ :=
  oSub (oMulC (twiddleCos m (p % m)) (st.real.getD (p + m / 2) none))
       (oMulC ((if inverse then (-1 : ℝ) else 1) * twiddleSin m (p % m))
         (st.imag.getD (p + m / 2) none))

/-- The value `tImag` of the same butterfly:
`sinSign*sin[j]*outReal[p+half] + cos[j]*outImag[p+half]`. -/
noncomputable def tImO (inverse : Bool) (m : ℕ) (st : CArr (Option ℝ)) (p : ℕ) : Option ℝ :=
  oAdd (oMulC ((if inverse then (-1 : ℝ) else 1) * twiddleSin m (p % m))
         (st.real.getD (p + m / 2) none))
       (oMulC (twiddleCos m (p % m)) (st.imag.getD (p + m / 2) none))

/-- The four values one butterfly writes, all read from the CURRENT state
before either store, exactly as in the source: with `u = out[p]` and `t`
as above, index `p` receives `u + t` and index `p + half` receives
`u - t` (first pair component: real, second: imaginary). -/
noncomputable def butterflyVals (inverse : Bool) (m : ℕ) (st : CArr (Option ℝ)) (p : ℕ) :
    (Option ℝ × Option ℝ) × (Option ℝ × Option ℝ) :=
  ((oAdd (st.real.getD p none) (tReO inverse m st p),
    oAdd (st.imag.getD p none) (tImO inverse m st p)),
   (oSub (st.real.getD p none) (tReO inverse m st p),
    oSub (st.imag.getD p none) (tImO inverse m st p)))

/-- One butterfly of the stage with block size `m`, as the source performs
it: read the pair, then store to `out[p]` and `out[p + half]`. -/
noncomputable def stageStepO (inverse : Bool) (m : ℕ) (st : CArr (Option ℝ)) (p : ℕ) :
    CArr (Option ℝ) :=
  ⟨(st.real.set p (butterflyVals inverse m st p).1.1).set (p + m / 2)
      (butterflyVals inverse m st p).2.1,
   (st.imag.set p (butterflyVals inverse m st p).1.2).set (p + m / 2)
      (butterflyVals inverse m st p).2.2⟩

/-- The butterfly positions of one stage: the loops `k = 0, m, 2m, ...` and
`j < m/2` visit exactly the `p = k + j < N` with `p % m < m/2`, in
increasing order. -/
def pairsList (N m : ℕ) : List ℕ :=
  (List.range N).filter fun p => decide (p % m < m / 2)

noncomputable def stageO (inverse : Bool) (m N : ℕ) (st : CArr (Option ℝ)) :
    CArr (Option ℝ) :=
  (pairsList N m).foldl (stageStepO inverse m) st

/-- Stages `1..s` in increasing order (the source's stage loop with
`m = 2^(stage+1)` for `stage = 0, 1, ...`). -/
noncomputable def stagesO (inverse : Bool) (N : ℕ) : ℕ → CArr (Option ℝ) → CArr (Option ℝ)
  | 0, st => st
  | s + 1, st => stageO inverse (2 ^ (s + 1)) N (stagesO inverse N s st)

/-- The final `out[i] = out[i] * scale` pass of the inverse. -/
def scaleO (K : ℕ) (c : ℝ) (st : CArr (Option ℝ)) : CArr (Option ℝ) :=
  (List.range K).foldl
    (fun st i =>
      ⟨st.real.set i (oMulR (st.real.getD i none) c),
       st.imag.set i (oMulR (st.imag.getD i none) c)⟩) st

/-- The imaginary input the scatter pass reads:
`inputImag ? (inputImag[i] ?? 0) : 0`. -/
def imagAt (im : Option (List ℝ)) (i : ℕ) : ℝ :=
  match im with
  | some l => l.getD i 0
  | none => 0

/-- Every write one `transform` call performs on the result buffer, in
source order: scatter, the `n` butterfly stages, and — for the inverse
only — the `1/size` scaling pass. -/
noncomputable def transformWrites (n : ℕ) (inverse : Bool) (re : List ℝ)
    (im : Option (List ℝ)) (st : CArr (Option ℝ)) : CArr (Option ℝ) :=
  if inverse then
    scaleO (2 ^ n) (1 / (2 ^ n : ℝ))
      (stagesO inverse (2 ^ n) n (scatterO n (2 ^ n) (fun i => re.getD i 0) (imagAt im) st))
  else
    stagesO inverse (2 ^ n) n (scatterO n (2 ^ n) (fun i => re.getD i 0) (imagAt im) st)

def imagLengthBad (inputImag : Option (List ℝ)) (N : ℕ) : Bool :=
  match inputImag with
  | some l => l.length != N
  | none => false

/-- The complex input assembled by the scatter pass:
`(inputReal[i] ?? 0) + i·(inputImag ? (inputImag[i] ?? 0) : 0)`. -/
noncomputable def embedInput (re : List ℝ) (im : Option (List ℝ)) : ℕ → ℂ := fun i =>
  ⟨re.getD i 0, imagAt im i⟩

/-- `Radix2Fft.transform` for a plan of size `N = 2^n`: the two input-length
guards (thrown before anything is written), then
`result = out ?? createComplexArray(size)` — the output buffer's length is
NOT checked — and all the in-place writes (`transformWrites`).  A buffer of
length `≥ N` ends up holding the pure values `fftTransform` at its indices
`< N` (`transformWrites_represents` below); a SHORTER buffer drops the
out-of-range stores and its out-of-range reads return `none` (NaN), which
the butterflies propagate, exactly as in JS. -/
noncomputable def transformBuf (n : ℕ) (inverse : Bool) (inputReal : List ℝ)
    (inputImag : Option (List ℝ)) (out : Option (CArr ℝ)) :
    Except DspError (CArr (Option ℝ)) :=
  if inputReal.length ≠ 2 ^ n then .error .invalidLength
  else if imagLengthBad inputImag (2 ^ n) then .error .invalidLength
  else
    .ok (transformWrites n inverse inputReal inputImag
      (liftC (out.getD (createComplexArray (2 ^ n)))))

noncomputable def forwardBuf (n : ℕ) (input : List ℝ) (out : Option (CArr ℝ)) :
    Except DspError (CArr (Option ℝ)) :=
  transformBuf n false input none out

noncomputable def forwardComplexBuf (n : ℕ) (input : CArr ℝ) (out : Option (CArr ℝ)) :
    Except DspError (CArr (Option ℝ)) :=
  transformBuf n false input.real (some input.imag) out

noncomputable def inverseBuf (n : ℕ) (input : CArr ℝ) (out : Option (CArr ℝ)) :
    Except DspError (CArr (Option ℝ)) :=
  transformBuf n true input.real (some input.imag) out

/-- The caller-visible effect of one `transform` call with a provided output
buffer: the raised error (if any) paired with the contents of the caller's
buffer after the call.  The source's two length guards run before its first
write, so on the error path the buffer still holds its original (NaN-free)
entries. -/
noncomputable def transformCall (n : ℕ) (inverse : Bool) (inputReal : List ℝ)
    (inputImag : Option (List ℝ)) (o : CArr ℝ) :
    Except DspError Unit × CArr (Option ℝ) :=
  match transformBuf n inverse inputReal inputImag (some o) with
  | .error e => (.error e, liftC o)
  | .ok r => (.ok (), r)

/-- Model of `applyWindow` (src/xform/fourier.ts): one length guard, then the
pointwise product written into `out` (or a fresh array of the input's
length). -/
def applyWindowBuf (input window : List ℝ) (out : Option (List ℝ)) :
    Except DspError (List ℝ) :=
  if input.length ≠ window.length then .error .invalidLength
  else .ok (writeSeq (out.getD (List.replicate input.length 0))
      (fun i => input.getD i 0 * window.getD i 0) input.length)

def applyWindowCall (input window : List ℝ) (o : List ℝ) :
    Except DspError Unit × List ℝ :=
  match applyWindowBuf input window (some o) with
  | .error e => (.error e, o)
  | .ok r => (.ok (), r)

/-- C9.  Whenever a transform or applyWindow call raises an invocation
error, a caller-supplied output buffer is left unmodified: both functions
run their length guards before writing any element of the output, so the
buffer after a failing call still holds exactly its original entries. -/
theorem invocation_error_leaves_out_unmodified :
    (∀ (n : ℕ) (inverse : Bool) (inputReal : List ℝ) (inputImag : Option (List ℝ))
        (o : CArr ℝ) (e : DspError),
      (transformCall n inverse inputReal inputImag o).1 = .error e →
        (transformCall n inverse inputReal inputImag o).2 = liftC o) ∧
    (∀ (input window o : List ℝ) (e : DspError),
      (applyWindowCall input window o).1 = .error e →
        (applyWindowCall input window o).2 = o) := by
  constructor
  · intro n inverse inputReal inputImag o e h
    cases htb : transformBuf n inverse inputReal inputImag (some o) with
    | error e' => simp [transformCall, htb]
    | ok r =>
        rw [transformCall] at h
        rw [htb] at h
        exact absurd h (by simp)
  · intro input window o e h
    cases htb : applyWindowBuf input window (some o) with
    | error e' => simp [applyWindowCall, htb]
    | ok r =>
        rw [applyWindowCall] at h
        rw [htb] at h
        exact absurd h (by simp)

/-- Witness for C9: a concrete failing transform call (input length 1,
plan size 2) and a concrete failing applyWindow call (lengths 2 vs 1),
each leaving the provided buffer untouched. -/
theorem invocation_error_witness :
    (transformCall 1 false [1] none ⟨[5], [6]⟩).1 = Except.error DspError.invalidLength ∧
    (transformCall 1 false [1] none ⟨[5], [6]⟩).2 = liftC (⟨[5], [6]⟩ : CArr ℝ) ∧
    (applyWindowCall [1, 2] [9] [7]).1 = Except.error DspError.invalidLength ∧
    (applyWindowCall [1, 2] [9] [7]).2 = [7] := by
  have h1 : (transformCall 1 false [1] none ⟨[5], [6]⟩).1
      = Except.error DspError.invalidLength := by
    rw [transformCall, transformBuf]
    norm_num
  have h2 : (applyWindowCall [1, 2] [9] [7]).1 = Except.error DspError.invalidLength := by
    rw [applyWindowCall, applyWindowBuf]
    norm_num
  exact ⟨h1, invocation_error_leaves_out_unmodified.1 1 false [1] none ⟨[5], [6]⟩ _ h1,
    h2, invocation_error_leaves_out_unmodified.2 [1, 2] [9] [7] _ h2⟩

/-! #### Facts about the in-place passes -/

lemma foldl_preserve_length {β : Type} (f : CArr (Option ℝ) → β → CArr (Option ℝ))
    (hf : ∀ st b, (f st b).real.length = st.real.length ∧
        (f st b).imag.length = st.imag.length) :
    ∀ (l : List β) (st : CArr (Option ℝ)),
      (l.foldl f st).real.length = st.real.length ∧
        (l.foldl f st).imag.length = st.imag.length := by
  intro l
  induction l with
  | nil => intro st; exact ⟨rfl, rfl⟩
  | cons b t ih =>
      intro st
      simp only [List.foldl_cons]
      have h1 := hf st b
      have h2 := ih (f st b)
      exact ⟨h2.1.trans h1.1, h2.2.trans h1.2⟩

lemma foldl_getD_preserved {β : Type} (f : CArr (Option ℝ) → β → CArr (Option ℝ))
    (P : β → Prop) (q : ℕ) (d : Option ℝ)
    (hf : ∀ st b, P b → (f st b).real.getD q d = st.real.getD q d ∧
        (f st b).imag.getD q d = st.imag.getD q d) :
    ∀ (l : List β) (st : CArr (Option ℝ)), (∀ b ∈ l, P b) →
      (l.foldl f st).real.getD q d = st.real.getD q d ∧
        (l.foldl f st).imag.getD q d = st.imag.getD q d := by
  intro l
  induction l with
  | nil => intro st _; exact ⟨rfl, rfl⟩
  | cons b t ih =>
      intro st hP
      simp only [List.foldl_cons]
      have h1 := hf st b (hP b (List.mem_cons_self b t))
      have h2 := ih (f st b) fun c hc => hP c (List.mem_cons_of_mem b hc)
      exact ⟨h2.1.trans h1.1, h2.2.trans h1.2⟩

lemma scatterO_length (bits K : ℕ) (xre xim : ℕ → ℝ) (st : CArr (Option ℝ)) :
    (scatterO bits K xre xim st).real.length = st.real.length ∧
      (scatterO bits K xre xim st).imag.length = st.imag.length :=
  foldl_preserve_length _ (fun st i => by simp) _ st

lemma stageStepO_length (inv : Bool) (m : ℕ) (st : CArr (Option ℝ)) (p : ℕ) :
    (stageStepO inv m st p).real.length = st.real.length ∧
      (stageStepO inv m st p).imag.length = st.imag.length := by
  simp [stageStepO]

lemma stageO_length (inv : Bool) (m N : ℕ) (st : CArr (Option ℝ)) :
    (stageO inv m N st).real.length = st.real.length ∧
      (stageO inv m N st).imag.length = st.imag.length :=
  foldl_preserve_length _ (fun st p => stageStepO_length inv m st p) _ st

lemma stagesO_length (inv : Bool) (N : ℕ) :
    ∀ (s : ℕ) (st : CArr (Option ℝ)),
      (stagesO inv N s st).real.length = st.real.length ∧
        (stagesO inv N s st).imag.length = st.imag.length := by
  intro s
  induction s with
  | zero => intro st; exact ⟨rfl, rfl⟩
  | succ s ih =>
      intro st
      have h1 := ih st
      have h2 := stageO_length inv (2 ^ (s + 1)) N (stagesO inv N s st)
      exact ⟨h2.1.trans h1.1, h2.2.trans h1.2⟩

lemma scaleO_length (K : ℕ) (c : ℝ) (st : CArr (Option ℝ)) :
    (scaleO K c st).real.length = st.real.length ∧
      (scaleO K c st).imag.length = st.imag.length :=
  foldl_preserve_length _ (fun st i => by simp) _ st

lemma transformWrites_length (n : ℕ) (inv : Bool) (re : List ℝ) (im : Option (List ℝ))
    (st : CArr (Option ℝ)) :
    (transformWrites n inv re im st).real.length = st.real.length ∧
      (transformWrites n inv re im st).imag.length = st.imag.length := by
  have hsc := scatterO_length n (2 ^ n) (fun i => re.getD i 0) (imagAt im) st
  have hst := stagesO_length inv (2 ^ n) n
      (scatterO n (2 ^ n) (fun i => re.getD i 0) (imagAt im) st)
  cases inv with
  | false =>
      simp only [transformWrites, Bool.false_eq_true, if_false]
      exact ⟨hst.1.trans hsc.1, hst.2.trans hsc.2⟩
  | true =>
      simp only [transformWrites, if_true]
      have hsl := scaleO_length (2 ^ n) (1 / (2 ^ n : ℝ))
          (stagesO true (2 ^ n) n
            (scatterO n (2 ^ n) (fun i => re.getD i 0) (imagAt im) st))
      exact ⟨hsl.1.trans (hst.1.trans hsc.1), hsl.2.trans (hst.2.trans hsc.2)⟩

lemma scatterO_getD_high (bits K : ℕ) (xre xim : ℕ → ℝ) (st : CArr (Option ℝ))
    (q : ℕ) (d : Option ℝ) (hq : ∀ i, i < K → bitRev bits i ≠ q) :
    (scatterO bits K xre xim st).real.getD q d = st.real.getD q d ∧
      (scatterO bits K xre xim st).imag.getD q d = st.imag.getD q d := by
  refine foldl_getD_preserved _ (fun i => bitRev bits i ≠ q) q d ?_ _ st ?_
  · intro st i hi
    exact ⟨getD_set_ne _ _ _ hi, getD_set_ne _ _ _ hi⟩
  · intro i hi
    exact hq i (List.mem_range.mp hi)

lemma stageStepO_getD_ne (inv : Bool) (m : ℕ) (st : CArr (Option ℝ)) (p q : ℕ)
    (d : Option ℝ) (h1 : p ≠ q) (h2 : p + m / 2 ≠ q) :
    (stageStepO inv m st p).real.getD q d = st.real.getD q d ∧
      (stageStepO inv m st p).imag.getD q d = st.imag.getD q d := by
  constructor
  · show ((st.real.set p _).set (p + m / 2) _).getD q d = _
    rw [getD_set_ne _ _ _ h2, getD_set_ne _ _ _ h1]
  · show ((st.imag.set p _).set (p + m / 2) _).getD q d = _
    rw [getD_set_ne _ _ _ h2, getD_set_ne _ _ _ h1]

lemma stageO_getD_untouched (inv : Bool) (m N : ℕ) (st : CArr (Option ℝ)) (q : ℕ)
    (d : Option ℝ) (hq : ∀ p ∈ pairsList N m, p ≠ q ∧ p + m / 2 ≠ q) :
    (stageO inv m N st).real.getD q d = st.real.getD q d ∧
      (stageO inv m N st).imag.getD q d = st.imag.getD q d :=
  foldl_getD_preserved _ (fun p => p ≠ q ∧ p + m / 2 ≠ q) q d
    (fun st p hp => stageStepO_getD_ne inv m st p q d hp.1 hp.2) _ st hq

lemma scaleO_getD_high (K : ℕ) (c : ℝ) (st : CArr (Option ℝ)) (q : ℕ) (d : Option ℝ)
    (hq : K ≤ q) :
    (scaleO K c st).real.getD q d = st.real.getD q d ∧
      (scaleO K c st).imag.getD q d = st.imag.getD q d := by
  refine foldl_getD_preserved _ (fun i => i ≠ q) q d ?_ _ st ?_
  · intro st i hi
    exact ⟨getD_set_ne _ _ _ hi, getD_set_ne _ _ _ hi⟩
  · intro i hi
    have := List.mem_range.mp hi
    omega

lemma mem_pairsList {N m p : ℕ} : p ∈ pairsList N m ↔ p < N ∧ p % m < m / 2 := by
  simp [pairsList]

lemma pairsList_pairwise (N m : ℕ) : (pairsList N m).Pairwise (· < ·) :=
  List.Pairwise.sublist (List.filter_sublist _) (List.pairwise_lt_range N)

lemma pairsList_mods {N m : ℕ} : ∀ p ∈ pairsList N m, p % m < m / 2 :=
  fun _ hp => (mem_pairsList.mp hp).2

lemma pairsList_bound {N m p : ℕ} (hm : m ∣ N) (h2 : 2 * (m / 2) = m)
    (hp : p ∈ pairsList N m) : p + m / 2 < N := by
  obtain ⟨hpN, hpm⟩ := mem_pairsList.mp hp
  have hd := Nat.mod_add_div' p m
  have hblt : p / m < N / m := Nat.div_lt_div_of_lt_of_dvd hm hpN
  have hmul : m * (p / m + 1) ≤ m * (N / m) := Nat.mul_le_mul_left m hblt
  have hexp : m * (p / m + 1) = p / m * m + m := by ring
  have hNm : m * (N / m) = N := Nat.mul_div_cancel' hm
  omega

lemma mod_add_half {m : ℕ} (h2 : 2 * (m / 2) = m) {p : ℕ} (hp : p % m < m / 2) :
    (p + m / 2) % m = p % m + m / 2 := by
  have hm0 : 0 < m := by omega
  conv_lhs => rw [Nat.add_mod]
  rw [Nat.mod_eq_of_lt (show m / 2 < m by omega)]
  exact Nat.mod_eq_of_lt (by omega)

lemma mod_sub_half {m : ℕ} (h2 : 2 * (m / 2) = m) (hh : 0 < m / 2) {q : ℕ}
    (hq : m / 2 ≤ q % m) : (q - m / 2) % m = q % m - m / 2 := by
  have hm0 : 0 < m := by omega
  have hqm : q % m < m := Nat.mod_lt q hm0
  have hd := Nat.mod_add_div' q m
  have heq : q - m / 2 = (q % m - m / 2) + q / m * m := by omega
  rw [heq, Nat.add_mul_mod_self_right]
  exact Nat.mod_eq_of_lt (by omega)

lemma pair_ne_of_lt {m : ℕ} (h2 : 2 * (m / 2) = m) {p p' : ℕ}
    (hp : p % m < m / 2) (hp' : p' % m < m / 2) (hlt : p < p') :
    p ≠ p' ∧ p + m / 2 ≠ p' ∧ p ≠ p' + m / 2 ∧ p + m / 2 ≠ p' + m / 2 := by
  refine ⟨by omega, ?_, by omega, by omega⟩
  intro h
  have hmod := mod_add_half h2 hp
  rw [h] at hmod
  omega

lemma stageFold_getD (inv : Bool) (m : ℕ) (h2 : 2 * (m / 2) = m) :
    ∀ (ps : List ℕ) (st : CArr (Option ℝ)) (p : ℕ),
      ps.Pairwise (· < ·) → (∀ r ∈ ps, r % m < m / 2) → p ∈ ps →
      p + m / 2 < st.real.length → p + m / 2 < st.imag.length →
      (ps.foldl (stageStepO inv m) st).real.getD p none
          = (butterflyVals inv m st p).1.1 ∧
        (ps.foldl (stageStepO inv m) st).imag.getD p none
          = (butterflyVals inv m st p).1.2 ∧
        (ps.foldl (stageStepO inv m) st).real.getD (p + m / 2) none
          = (butterflyVals inv m st p).2.1 ∧
        (ps.foldl (stageStepO inv m) st).imag.getD (p + m / 2) none
          = (butterflyVals inv m st p).2.2 := by
  intro ps
  induction ps with
  | nil => intro st p _ _ hp; exact absurd hp (List.not_mem_nil p)
  | cons r t ih =>
      intro st p hpw hmods hp hlr hli
      simp only [List.foldl_cons]
      have hmodr : r % m < m / 2 := hmods r (List.mem_cons_self r t)
      rcases List.mem_cons.mp hp with hpr | hpt
      · subst hpr
        have hhalf : 0 < m / 2 := by omega
        have huntouched : ∀ r' ∈ t, r' ≠ p ∧ r' + m / 2 ≠ p ∧
            r' ≠ p + m / 2 ∧ r' + m / 2 ≠ p + m / 2 := by
          intro r' hr'
          have hlt : p < r' := (List.pairwise_cons.mp hpw).1 r' hr'
          have h4 := pair_ne_of_lt h2 hmodr (hmods r' (List.mem_cons_of_mem _ hr')) hlt
          exact ⟨fun h => h4.1 h.symm, fun h => h4.2.2.1 h.symm,
                 fun h => h4.2.1 h.symm, fun h => h4.2.2.2 h.symm⟩
        have hA := foldl_getD_preserved (stageStepO inv m)
            (fun r' => r' ≠ p ∧ r' + m / 2 ≠ p) p none
            (fun st r' h => stageStepO_getD_ne inv m st r' p none h.1 h.2) t
            (stageStepO inv m st p)
            (fun r' hr' => ⟨(huntouched r' hr').1, (huntouched r' hr').2.1⟩)
        have hB := foldl_getD_preserved (stageStepO inv m)
            (fun r' => r' ≠ p + m / 2 ∧ r' + m / 2 ≠ p + m / 2) (p + m / 2) none
            (fun st r' h => stageStepO_getD_ne inv m st r' (p + m / 2) none h.1 h.2) t
            (stageStepO inv m st p)
            (fun r' hr' => ⟨(huntouched r' hr').2.2.1, (huntouched r' hr').2.2.2⟩)
        refine ⟨?_, ?_, ?_, ?_⟩
        · rw [hA.1]
          show ((st.real.set p _).set (p + m / 2) _).getD p none = _
          rw [getD_set_ne _ _ _ (by omega), getD_set_lt _ _ _ _ (by omega)]
        · rw [hA.2]
          show ((st.imag.set p _).set (p + m / 2) _).getD p none = _
          rw [getD_set_ne _ _ _ (by omega), getD_set_lt _ _ _ _ (by omega)]
        · rw [hB.1]
          show ((st.real.set p _).set (p + m / 2) _).getD (p + m / 2) none = _
          rw [getD_set_lt _ _ _ _ (by simpa using hlr)]
        · rw [hB.2]
          show ((st.imag.set p _).set (p + m / 2) _).getD (p + m / 2) none = _
          rw [getD_set_lt _ _ _ _ (by simpa using hli)]
      · have hltrp : r < p := (List.pairwise_cons.mp hpw).1 p hpt
        have hmodp : p % m < m / 2 := hmods p (List.mem_cons_of_mem _ hpt)
        have h4 := pair_ne_of_lt h2 hmodr hmodp hltrp
        have hsr := stageStepO_getD_ne inv m st r p none h4.1 h4.2.1
        have hsr2 := stageStepO_getD_ne inv m st r (p + m / 2) none h4.2.2.1 h4.2.2.2
        have hlen := stageStepO_length inv m st r
        have hmain := ih (stageStepO inv m st r) p (List.pairwise_cons.mp hpw).2
            (fun r' hr' => hmods r' (List.mem_cons_of_mem _ hr')) hpt
            (by rw [hlen.1]; exact hlr) (by rw [hlen.2]; exact hli)
        have hbv : butterflyVals inv m (stageStepO inv m st r) p
            = butterflyVals inv m st p := by
          simp only [butterflyVals, tReO, tImO]
          rw [hsr.1, hsr.2, hsr2.1, hsr2.2]
        rw [hbv] at hmain
        exact hmain

/-- State `st` holds the (NaN-free) complex sequence `y` on `[0, K)`. -/
def Represents (K : ℕ) (st : CArr (Option ℝ)) (y : ℕ → ℂ) : Prop :=
  ∀ j, j < K → st.real.getD j none = some (y j).re ∧ st.imag.getD j none = some (y j).im

lemma butterflyW_mul_re (inv : Bool) (m k : ℕ) (v : ℂ) :
    (butterflyW inv m k * v).re
      = twiddleCos m k * v.re - (if inv then (-1 : ℝ) else 1) * twiddleSin m k * v.im := by
  simp [butterflyW, Complex.mul_re]

lemma butterflyW_mul_im (inv : Bool) (m k : ℕ) (v : ℂ) :
    (butterflyW inv m k * v).im
      = (if inv then (-1 : ℝ) else 1) * twiddleSin m k * v.re + twiddleCos m k * v.im := by
  simp [butterflyW, Complex.mul_im]
  ring

lemma stageO_represents (inv : Bool) (m N : ℕ) (hdvd : m ∣ N) (h2 : 2 * (m / 2) = m)
    (hh : 0 < m / 2) (st : CArr (Option ℝ)) (y : ℕ → ℂ)
    (hlr : N ≤ st.real.length) (hli : N ≤ st.imag.length)
    (hrep : Represents N st y) :
    Represents N (stageO inv m N st) (stageF inv m y) := by
  intro q hq
  by_cases hcase : q % m < m / 2
  · have hqmem : q ∈ pairsList N m := mem_pairsList.mpr ⟨hq, hcase⟩
    have hbound : q + m / 2 < N := pairsList_bound hdvd h2 hqmem
    have hfold := stageFold_getD inv m h2 (pairsList N m) st q
        (pairsList_pairwise N m) pairsList_mods hqmem (by omega) (by omega)
    have hu := hrep q hq
    have hv := hrep (q + m / 2) hbound
    have hsf : stageF inv m y q = y q + butterflyW inv m (q % m) * y (q + m / 2) := by
      simp only [stageF]
      rw [if_pos hcase]
    constructor
    · show ((pairsList N m).foldl (stageStepO inv m) st).real.getD q none = _
      rw [hfold.1]
      simp only [butterflyVals, tReO, tImO]
      rw [hu.1, hv.1, hv.2]
      simp only [oMulC_some, oSub_some, oAdd_some]
      rw [hsf, Complex.add_re, butterflyW_mul_re]
    · show ((pairsList N m).foldl (stageStepO inv m) st).imag.getD q none = _
      rw [hfold.2.1]
      simp only [butterflyVals, tReO, tImO]
      rw [hu.2, hv.1, hv.2]
      simp only [oMulC_some, oSub_some, oAdd_some]
      rw [hsf, Complex.add_im, butterflyW_mul_im]
  · push_neg at hcase
    have hm0 : 0 < m := by omega
    have hqm : q % m < m := Nat.mod_lt q hm0
    have hple : m / 2 ≤ q := le_trans hcase (Nat.mod_le q m)
    have hpq : (q - m / 2) + m / 2 = q := by omega
    have hpmod : (q - m / 2) % m = q % m - m / 2 := mod_sub_half h2 (by omega) hcase
    have hpm : (q - m / 2) % m < m / 2 := by omega
    have hpmem : (q - m / 2) ∈ pairsList N m := mem_pairsList.mpr ⟨by omega, hpm⟩
    have hfold := stageFold_getD inv m h2 (pairsList N m) st (q - m / 2)
        (pairsList_pairwise N m) pairsList_mods hpmem (by omega) (by omega)
    have hu := hrep (q - m / 2) (by omega)
    have hv := hrep q hq
    have hsf : stageF inv m y q
        = y (q - m / 2) - butterflyW inv m (q % m - m / 2) * y q := by
      simp only [stageF]
      rw [if_neg (by omega)]
    constructor
    · have h3 := hfold.2.2.1
      rw [hpq] at h3
      show ((pairsList N m).foldl (stageStepO inv m) st).real.getD q none = _
      rw [h3]
      simp only [butterflyVals, tReO, tImO]
      rw [hpq, hpmod, hu.1, hv.1, hv.2]
      simp only [oMulC_some, oSub_some, oAdd_some]
      rw [hsf, Complex.sub_re, butterflyW_mul_re]
    · have h4 := hfold.2.2.2
      rw [hpq] at h4
      show ((pairsList N m).foldl (stageStepO inv m) st).imag.getD q none = _
      rw [h4]
      simp only [butterflyVals, tReO, tImO]
      rw [hpq, hpmod, hu.2, hv.1, hv.2]
      simp only [oMulC_some, oSub_some, oAdd_some]
      rw [hsf, Complex.sub_im, butterflyW_mul_im]

lemma two_mul_half_pow (s : ℕ) : 2 * (2 ^ (s + 1) / 2) = 2 ^ (s + 1) := by
  rw [pow_succ]
  omega

lemma half_pow_pos (s : ℕ) : 0 < 2 ^ (s + 1) / 2 := by
  have h0 : 1 ≤ (2 : ℕ) ^ s := Nat.one_le_two_pow
  rw [pow_succ]
  omega

lemma stagesO_represents (inv : Bool) (n : ℕ) (st : CArr (Option ℝ)) (y : ℕ → ℂ)
    (hlr : 2 ^ n ≤ st.real.length) (hli : 2 ^ n ≤ st.imag.length)
    (hrep : Represents (2 ^ n) st y) :
    ∀ s, s ≤ n → Represents (2 ^ n) (stagesO inv (2 ^ n) s st) (stagesF inv s y) := by
  intro s
  induction s with
  | zero => intro _; exact hrep
  | succ s ih =>
      intro hs
      have hrep' := ih (by omega)
      have hlen := stagesO_length inv (2 ^ n) s st
      exact stageO_represents inv (2 ^ (s + 1)) (2 ^ n)
        (pow_dvd_pow 2 hs) (two_mul_half_pow s) (half_pow_pos s) _ _
        (by rw [hlen.1]; exact hlr) (by rw [hlen.2]; exact hli) hrep'

lemma scatterO_spec (n : ℕ) (xre xim : ℕ → ℝ) :
    ∀ (K : ℕ) (st : CArr (Option ℝ)) (q : ℕ), K ≤ 2 ^ n → q < 2 ^ n →
      2 ^ n ≤ st.real.length → 2 ^ n ≤ st.imag.length →
      ((scatterO n K xre xim st).real.getD q none
          = if bitRev n q < K then some (xre (bitRev n q)) else st.real.getD q none) ∧
      ((scatterO n K xre xim st).imag.getD q none
          = if bitRev n q < K then some (xim (bitRev n q)) else st.imag.getD q none) := by
  intro K
  induction K with
  | zero =>
      intro st q _ _ _ _
      constructor <;> simp [scatterO]
  | succ K ih =>
      intro st q hK hq hlr hli
      have hscat : scatterO n (K + 1) xre xim st
          = ⟨(scatterO n K xre xim st).real.set (bitRev n K) (some (xre K)),
             (scatterO n K xre xim st).imag.set (bitRev n K) (some (xim K))⟩ := by
        simp only [scatterO, List.range_succ, List.foldl_append, List.foldl_cons,
          List.foldl_nil]
      have hlen := scatterO_length n K xre xim st
      have hKlt : K < 2 ^ n := hK
      by_cases hqK : q = bitRev n K
      · have hrevq : bitRev n q = K := by
          rw [hqK, bitRev_involutive n K hKlt]
        rw [hscat]
        constructor
        · show ((scatterO n K xre xim st).real.set (bitRev n K) (some (xre K))).getD q none = _
          rw [hrevq, if_pos (Nat.lt_succ_self K), hqK, getD_set_lt _ _ _ _
            (by rw [hlen.1]; exact lt_of_lt_of_le (bitRev_lt n K) hlr)]
        · show ((scatterO n K xre xim st).imag.set (bitRev n K) (some (xim K))).getD q none = _
          rw [hrevq, if_pos (Nat.lt_succ_self K), hqK, getD_set_lt _ _ _ _
            (by rw [hlen.2]; exact lt_of_lt_of_le (bitRev_lt n K) hli)]
      · have hne : bitRev n K ≠ q := fun h => hqK h.symm
        have hrevne : bitRev n q ≠ K := by
          intro h
          apply hqK
          conv_lhs => rw [← bitRev_involutive n q hq]
          rw [h]
        rw [hscat]
        have hprev := ih st q (by omega) hq hlr hli
        constructor
        · show ((scatterO n K xre xim st).real.set (bitRev n K) (some (xre K))).getD q none = _
          rw [getD_set_ne _ _ _ hne, hprev.1]
          by_cases hc : bitRev n q < K
          · rw [if_pos hc, if_pos (by omega)]
          · rw [if_neg hc, if_neg (by omega)]
        · show ((scatterO n K xre xim st).imag.set (bitRev n K) (some (xim K))).getD q none = _
          rw [getD_set_ne _ _ _ hne, hprev.2]
          by_cases hc : bitRev n q < K
          · rw [if_pos hc, if_pos (by omega)]
          · rw [if_neg hc, if_neg (by omega)]

lemma scaleO_spec (c : ℝ) :
    ∀ (K : ℕ) (st : CArr (Option ℝ)) (q : ℕ),
      ((scaleO K c st).real.getD q none
          = if q < K then oMulR (st.real.getD q none) c else st.real.getD q none) ∧
      ((scaleO K c st).imag.getD q none
          = if q < K then oMulR (st.imag.getD q none) c else st.imag.getD q none) := by
  intro K
  induction K with
  | zero =>
      intro st q
      constructor <;> simp [scaleO]
  | succ K ih =>
      intro st q
      have hsc : scaleO (K + 1) c st
          = ⟨(scaleO K c st).real.set K (oMulR ((scaleO K c st).real.getD K none) c),
             (scaleO K c st).imag.set K (oMulR ((scaleO K c st).imag.getD K none) c)⟩ := by
        simp only [scaleO, List.range_succ, List.foldl_append, List.foldl_cons,
          List.foldl_nil]
      have hlen := scaleO_length K c st
      have hprev := ih st q
      have hprevK := ih st K
      rw [hsc]
      by_cases hqK : q = K
      · subst hqK
        have hKval : (scaleO q c st).real.getD q none = st.real.getD q none := by
          rw [hprev.1, if_neg (by omega)]
        have hKval2 : (scaleO q c st).imag.getD q none = st.imag.getD q none := by
          rw [hprev.2, if_neg (by omega)]
        constructor
        · show ((scaleO q c st).real.set q _).getD q none = _
          by_cases hl : q < st.real.length
          · rw [getD_set_lt _ _ _ _ (by rw [hlen.1]; exact hl), hKval, if_pos (by omega)]
          · rw [List.set_eq_of_length_le (by rw [hlen.1]; omega), hKval, if_pos (by omega)]
            rw [List.getD_eq_default _ _ (by omega)]
            rfl
        · show ((scaleO q c st).imag.set q _).getD q none = _
          by_cases hl : q < st.imag.length
          · rw [getD_set_lt _ _ _ _ (by rw [hlen.2]; exact hl), hKval2, if_pos (by omega)]
          · rw [List.set_eq_of_length_le (by rw [hlen.2]; omega), hKval2, if_pos (by omega)]
            rw [List.getD_eq_default _ _ (by omega)]
            rfl
      · constructor
        · show ((scaleO K c st).real.set K _).getD q none = _
          rw [getD_set_ne _ _ _ (fun h => hqK h.symm), hprev.1]
          by_cases hc : q < K
          · rw [if_pos hc, if_pos (by omega)]
          · rw [if_neg hc, if_neg (by omega)]
        · show ((scaleO K c st).imag.set K _).getD q none = _
          rw [getD_set_ne _ _ _ (fun h => hqK h.symm), hprev.2]
          by_cases hc : q < K
          · rw [if_pos hc, if_pos (by omega)]
          · rw [if_neg hc, if_neg (by omega)]

lemma mul_inv_pow_re_im (z : ℂ) (n : ℕ) :
    (z * (1 / (2 ^ n : ℂ))).re = z.re * (1 / (2 ^ n : ℝ)) ∧
      (z * (1 / (2 ^ n : ℂ))).im = z.im * (1 / (2 ^ n : ℝ)) := by
  have hcast : ((1 : ℂ) / (2 ^ n : ℂ)) = (((1 / (2 ^ n : ℝ)) : ℝ) : ℂ) := by
    push_cast
    ring
  rw [hcast]
  constructor
  · rw [Complex.mul_re, Complex.ofReal_re, Complex.ofReal_im]
    ring
  · rw [Complex.mul_im, Complex.ofReal_re, Complex.ofReal_im]
    ring

/-- For a result buffer at least as long as the plan size, every in-place
read of the scatter/butterfly/scale passes is in range, and the buffer ends
up holding exactly the pure transform values on `[0, 2^n)`. -/
lemma transformWrites_represents (n : ℕ) (inv : Bool) (re : List ℝ) (im : Option (List ℝ))
    (st : CArr (Option ℝ)) (hlr : 2 ^ n ≤ st.real.length) (hli : 2 ^ n ≤ st.imag.length) :
    Represents (2 ^ n) (transformWrites n inv re im st)
      (fftTransform n inv (embedInput re im)) := by
  have hscatrep : Represents (2 ^ n)
      (scatterO n (2 ^ n) (fun i => re.getD i 0) (imagAt im) st)
      (scatterF n (embedInput re im)) := by
    intro q hq
    have hs := scatterO_spec n (fun i => re.getD i 0) (imagAt im) (2 ^ n) st q
        le_rfl hq hlr hli
    have hb : bitRev n q < 2 ^ n := bitRev_lt n q
    constructor
    · rw [hs.1, if_pos hb]
      rfl
    · rw [hs.2, if_pos hb]
      rfl
  have hscatlen := scatterO_length n (2 ^ n) (fun i => re.getD i 0) (imagAt im) st
  have hstagerep := stagesO_represents inv n
      (scatterO n (2 ^ n) (fun i => re.getD i 0) (imagAt im) st)
      (scatterF n (embedInput re im))
      (by rw [hscatlen.1]; exact hlr) (by rw [hscatlen.2]; exact hli) hscatrep n le_rfl
  cases inv with
  | false =>
      intro q hq
      have h := hstagerep q hq
      simp only [transformWrites, Bool.false_eq_true, if_false]
      simp only [fftTransform, Bool.false_eq_true, if_false]
      exact h
  | true =>
      intro q hq
      have h := hstagerep q hq
      simp only [transformWrites, if_true]
      simp only [fftTransform, if_true]
      have hsc := scaleO_spec (1 / (2 ^ n : ℝ)) (2 ^ n)
          (stagesO true (2 ^ n) n
            (scatterO n (2 ^ n) (fun i => re.getD i 0) (imagAt im) st)) q
      have hmul := mul_inv_pow_re_im
          (stagesF true n (scatterF n (embedInput re im)) q) n
      constructor
      · rw [hsc.1, if_pos hq, h.1, oMulR_some, hmul.1]
      · rw [hsc.2, if_pos hq, h.2, oMulR_some, hmul.2]

/-- Entries at indices `≥ 2^n` are never written by any pass: the scatter
targets `rev[i] < 2^n`, each butterfly writes `p` and `p + half` with
`p + half < 2^n`, and the scaling loop runs over `i < 2^n`. -/
lemma transformWrites_tail (n : ℕ) (inv : Bool) (re : List ℝ) (im : Option (List ℝ))
    (st : CArr (Option ℝ)) (q : ℕ) (d : Option ℝ) (hq : 2 ^ n ≤ q) :
    (transformWrites n inv re im st).real.getD q d = st.real.getD q d ∧
      (transformWrites n inv re im st).imag.getD q d = st.imag.getD q d := by
  have h1 := scatterO_getD_high n (2 ^ n) (fun i => re.getD i 0) (imagAt im) st q d
      (fun i _ => by have := bitRev_lt n i; omega)
  have h2 : ∀ (s : ℕ), s ≤ n → ∀ (st' : CArr (Option ℝ)),
      (stagesO inv (2 ^ n) s st').real.getD q d = st'.real.getD q d ∧
        (stagesO inv (2 ^ n) s st').imag.getD q d = st'.imag.getD q d := by
    intro s
    induction s with
    | zero => intro _ st'; exact ⟨rfl, rfl⟩
    | succ s ih =>
        intro hs st'
        have hu : ∀ p ∈ pairsList (2 ^ n) (2 ^ (s + 1)),
            p ≠ q ∧ p + 2 ^ (s + 1) / 2 ≠ q := by
          intro p hp
          have hb := pairsList_bound (pow_dvd_pow 2 hs) (two_mul_half_pow s) hp
          have hpN := (mem_pairsList.mp hp).1
          omega
        have hstep := stageO_getD_untouched inv (2 ^ (s + 1)) (2 ^ n)
            (stagesO inv (2 ^ n) s st') q d hu
        have hrest := ih (by omega) st'
        exact ⟨hstep.1.trans hrest.1, hstep.2.trans hrest.2⟩
  have h2n := h2 n le_rfl (scatterO n (2 ^ n) (fun i => re.getD i 0) (imagAt im) st)
  cases inv with
  | false =>
      simp only [transformWrites, Bool.false_eq_true, if_false]
      exact ⟨h2n.1.trans h1.1, h2n.2.trans h1.2⟩
  | true =>
      simp only [transformWrites, if_true]
      have h3 := scaleO_getD_high (2 ^ n) (1 / (2 ^ n : ℝ))
          (stagesO true (2 ^ n) n
            (scatterO n (2 ^ n) (fun i => re.getD i 0) (imagAt im) st)) q d hq
      exact ⟨h3.1.trans (h2n.1.trans h1.1), h3.2.trans (h2n.2.trans h1.2)⟩

/-- The observable outcome the amended C6 asserts about a provided output
buffer: the call succeeds, the returned buffer is the provided one (same
component lengths, entries at indices `≥ 2^n` untouched), and — whenever
both components are at least as long as the plan size, so that no in-place
read ever falls out of range — its entries at indices `< 2^n` hold exactly
the transform values.  Nothing is asserted about the in-range contents of a
SHORTER buffer: there the out-of-range reads make the code fill it with
NaNs. -/
def OverwritesOut (n : ℕ) (x : ℕ → ℂ) (inv : Bool) (o : CArr ℝ)
    (res : Except DspError (CArr (Option ℝ))) : Prop :=
  ∃ r, res = .ok r ∧
    r.real.length = o.real.length ∧ r.imag.length = o.imag.length ∧
    (2 ^ n ≤ o.real.length → 2 ^ n ≤ o.imag.length →
      ∀ j, j < 2 ^ n →
        r.real.getD j none = some ((fftTransform n inv x j).re) ∧
        r.imag.getD j none = some ((fftTransform n inv x j).im)) ∧
    (∀ j d, 2 ^ n ≤ j → r.real.getD j d = (liftC o).real.getD j d) ∧
    (∀ j d, 2 ^ n ≤ j → r.imag.getD j d = (liftC o).imag.getD j d)

lemma transformBuf_overwrites (n : ℕ) (inv : Bool) (re : List ℝ) (im : Option (List ℝ))
    (o : CArr ℝ) (hre : re.length = 2 ^ n) (him : imagLengthBad im (2 ^ n) = false) :
    OverwritesOut n (embedInput re im) inv o (transformBuf n inv re im (some o)) := by
  rw [transformBuf, if_neg (by omega), if_neg (by rw [him]; exact Bool.false_ne_true)]
  simp only [Option.getD_some]
  have hliftr : (liftC o).real.length = o.real.length := by simp [liftC]
  have hlifti : (liftC o).imag.length = o.imag.length := by simp [liftC]
  have hlen := transformWrites_length n inv re im (liftC o)
  refine ⟨_, rfl, by rw [hlen.1, hliftr], by rw [hlen.2, hlifti], ?_, ?_, ?_⟩
  · intro hlr hli j hj
    exact transformWrites_represents n inv re im (liftC o)
        (by rw [hliftr]; exact hlr) (by rw [hlifti]; exact hli) j hj
  · intro j d hj
    exact (transformWrites_tail n inv re im (liftC o) j d hj).1
  · intro j d hj
    exact (transformWrites_tail n inv re im (liftC o) j d hj).2

/-- C6 (amended).  For forward, forwardComplex and inverse with valid input
lengths, a provided output buffer is used and returned whatever its length:
the output buffer's length is never validated, so no `InvalidLength` is
raised when it differs from the plan size (only the input lengths are
checked).  The call leaves indices `≥ N` of the buffer untouched and, when
both components are at least as long as the plan size, overwrites indices
`< N` with the transform values; a shorter buffer is also accepted without
error (the code then reads past its end and NaN-poisons the contents,
which the model reproduces with `none` entries). -/
theorem out_buffer_overwritten_never_validated (n : ℕ) :
    (∀ (input : List ℝ) (o : CArr ℝ), input.length = 2 ^ n →
      OverwritesOut n (embedInput input none) false o (forwardBuf n input (some o))) ∧
    (∀ (input : CArr ℝ) (o : CArr ℝ),
      input.real.length = 2 ^ n → input.imag.length = 2 ^ n →
      OverwritesOut n (embedInput input.real (some input.imag)) false o
        (forwardComplexBuf n input (some o))) ∧
    (∀ (input : CArr ℝ) (o : CArr ℝ),
      input.real.length = 2 ^ n → input.imag.length = 2 ^ n →
      OverwritesOut n (embedInput input.real (some input.imag)) true o
        (inverseBuf n input (some o))) := by
  refine ⟨?_, ?_, ?_⟩
  · intro input o h
    exact transformBuf_overwrites n false input none o h rfl
  · intro input o hre him
    refine transformBuf_overwrites n false input.real (some input.imag) o hre ?_
    simp [imagLengthBad, him]
  · intro input o hre him
    refine transformBuf_overwrites n true input.real (some input.imag) o hre ?_
    simp [imagLengthBad, him]

/-- Counterexample to C6 as stated: a forward call given an output buffer of
length 2 on a plan of size `2^0 = 1` does not fail with `InvalidLength` (no
error at all: the call returns `ok`) — the output buffer's length is never
checked. -/
theorem out_length_mismatch_no_error :
    (forwardBuf 0 [3] (some ⟨[1, 2], [4, 5]⟩)).isOk = true := by
  rw [forwardBuf, transformBuf]
  norm_num [imagLengthBad]
  rfl

/-- Witness for the amended C6 at a concrete call: plan size 1, output
buffer of (unvalidated) length 2, long enough for the content clause to
apply. -/
theorem out_buffer_overwritten_witness :
    OverwritesOut 0 (embedInput [3] none) false ⟨[1, 2], [4, 5]⟩
      (forwardBuf 0 [3] (some ⟨[1, 2], [4, 5]⟩)) :=
  (out_buffer_overwritten_never_validated 0).1 [3] ⟨[1, 2], [4, 5]⟩ (by norm_num)

/-! ### Complex vector arithmetic (second half of src/core/fft.ts)

Generic over a field `α` (`Float64Array` entries are exact field elements:
`ℝ` for the library, `ℚ` in executable witnesses).  Each op has an
allocating form (`add a b`) that delegates to a write-into form
(`addInto a b out`) with a fresh output, exactly as in the source.

The write-into loops (`for i in [0, n): out[i] = f(a[i], b[i])` with
`n = len(a)`) are modelled by explicit state passing.  `intoLoop2` models a
call whose output buffer is distinct from both inputs (the reads of `a` and
`b` are unaffected by the writes); `intoLoop2A` and `intoLoop2B` model the
aliased calls `op(a, b, a)` and `op(a, b, b)`, in which each read of the
aliased operand sees the writes performed so far.  Likewise `intoLoop1` and
`intoLoop1A` for the one-input ops. -/

def readPair {α : Type} [Field α] (c : CArr α) (i : ℕ) : α × α :=
  (c.real.getD i 0, c.imag.getD i 0)

def writePair {α : Type} [Field α] (c : CArr α) (i : ℕ) (p : α × α) : CArr α :=
  ⟨c.real.set i p.1, c.imag.set i p.2⟩

def intoLoop2 {α : Type} [Field α] (f : α × α → α × α → α × α) (a b : CArr α) :
    CArr α → ℕ → ℕ → CArr α
  | out, _, 0 => out
  | out, i, fuel + 1 =>
      intoLoop2 f a b (writePair out i (f (readPair a i) (readPair b i))) (i + 1) fuel

def intoLoop2A {α : Type} [Field α] (f : α × α → α × α → α × α) (b : CArr α) :
    CArr α → ℕ → ℕ → CArr α
  | s, _, 0 => s
  | s, i, fuel + 1 =>
      intoLoop2A f b (writePair s i (f (readPair s i) (readPair b i))) (i + 1) fuel

def intoLoop2B {α : Type} [Field α] (f : α × α → α × α → α × α) (a : CArr α) :
    CArr α → ℕ → ℕ → CArr α
  | s, _, 0 => s
  | s, i, fuel + 1 =>
      intoLoop2B f a (writePair s i (f (readPair a i) (readPair s i))) (i + 1) fuel

def intoLoop1 {α : Type} [Field α] (g : α × α → α × α) (a : CArr α) :
    CArr α → ℕ → ℕ → CArr α
  | out, _, 0 => out
  | out, i, fuel + 1 => intoLoop1 g a (writePair out i (g (readPair a i))) (i + 1) fuel

def intoLoop1A {α : Type} [Field α] (g : α × α → α × α) :
    CArr α → ℕ → ℕ → CArr α
  | s, _, 0 => s
  | s, i, fuel + 1 => intoLoop1A g (writePair s i (g (readPair s i))) (i + 1) fuel

/-- Elementwise sum `out[i] = a[i] + b[i]` (both components). -/
def addF {α : Type} [Field α] (p q : α × α) : α × α := (p.1 + q.1, p.2 + q.2)

def subF {α : Type} [Field α] (p q : α × α) : α × α := (p.1 - q.1, p.2 - q.2)

/-- Hadamard product `(ac - bd) + i(ad + bc)`. -/
def mulF {α : Type} [Field α] (p q : α × α) : α × α :=
  (p.1 * q.1 - p.2 * q.2, p.1 * q.2 + p.2 * q.1)

/-- Elementwise quotient `(ac + bd + i(bc - ad)) / (c² + d²)`; division by a complex zero is not
guarded (exact-field model of the IEEE behaviour; `x / 0 = 0` here). -/
def divF {α : Type} [Field α] (p q : α × α) : α × α :=
  ((p.1 * q.1 + p.2 * q.2) / (q.1 * q.1 + q.2 * q.2),
   (p.2 * q.1 - p.1 * q.2) / (q.1 * q.1 + q.2 * q.2))

def scaleF {α : Type} [Field α] (s : α) (p : α × α) : α × α := (p.1 * s, p.2 * s)

def mulScalarF {α : Type} [Field α] (re im : α) (p : α × α) : α × α :=
  (p.1 * re - p.2 * im, p.1 * im + p.2 * re)

def conjF {α : Type} [Field α] (p : α × α) : α × α := (p.1, -p.2)

/-- Length helper `len(a) = a.real.length`, as in the source. -/
def len {α : Type} (a : CArr α) : ℕ := a.real.length

/-- The math module's `alloc(n)`: two zero-filled arrays. -/
def alloc {α : Type} [Field α] (n : ℕ) : CArr α :=
  ⟨List.replicate n 0, List.replicate n 0⟩

def scaleInto {α : Type} [Field α] (a : CArr α) (s : α) (out : CArr α) : CArr α :=
  intoLoop1 (scaleF s) a out 0 (len a)

def scale {α : Type} [Field α] (a : CArr α) (s : α) : CArr α := scaleInto a s (alloc (len a))

def addInto {α : Type} [Field α] (a b out : CArr α) : CArr α :=
  intoLoop2 addF a b out 0 (len a)

def add {α : Type} [Field α] (a b : CArr α) : CArr α := addInto a b (alloc (len a))

def subInto {α : Type} [Field α] (a b out : CArr α) : CArr α :=
  intoLoop2 subF a b out 0 (len a)

def sub {α : Type} [Field α] (a b : CArr α) : CArr α := subInto a b (alloc (len a))

def mulInto {α : Type} [Field α] (a b out : CArr α) : CArr α :=
  intoLoop2 mulF a b out 0 (len a)

def mul {α : Type} [Field α] (a b : CArr α) : CArr α := mulInto a b (alloc (len a))

def mulScalarInto {α : Type} [Field α] (a : CArr α) (re im : α) (out : CArr α) : CArr α :=
  intoLoop1 (mulScalarF re im) a out 0 (len a)

def mulScalar {α : Type} [Field α] (a : CArr α) (re im : α) : CArr α :=
  mulScalarInto a re im (alloc (len a))

def divInto {α : Type} [Field α] (a b out : CArr α) : CArr α :=
  intoLoop2 divF a b out 0 (len a)

def div {α : Type} [Field α] (a b : CArr α) : CArr α := divInto a b (alloc (len a))

/-- The op `divScalarInto` delegates to `mulScalarInto` with
`invRe = re/(re²+im²)`, `invIm = -im/(re²+im²)`, as in the source. -/
def divScalarInto {α : Type} [Field α] (a : CArr α) (re im : α) (out : CArr α) : CArr α :=
  mulScalarInto a (re / (re * re + im * im)) (-im / (re * re + im * im)) out

def divScalar {α : Type} [Field α] (a : CArr α) (re im : α) : CArr α :=
  divScalarInto a re im (alloc (len a))

def conjInto {α : Type} [Field α] (a out : CArr α) : CArr α :=
  intoLoop1 conjF a out 0 (len a)

def conj {α : Type} [Field α] (a : CArr α) : CArr α := conjInto a (alloc (len a))

/-- Model of `TypedArray.set(src)` at offset 0 (well-defined when `src` is not longer
than `dst`; the only uses below have equal lengths). -/
def typedSet {α : Type} (dst src : List α) : List α := src ++ dst.drop src.length

def copyInto {α : Type} (a out : CArr α) : CArr α :=
  ⟨typedSet out.real a.real, typedSet out.imag a.imag⟩

/-- The op `copy(a)` builds fresh arrays with `a`'s contents. -/
def copy {α : Type} (a : CArr α) : CArr α := ⟨a.real, a.imag⟩

/-! The aliased calls: `op(a, b, a)`, `op(a, b, b)` and `op(a, a)` executed
with the output physically identical to an input. -/

def scaleIntoAliased {α : Type} [Field α] (a : CArr α) (s : α) : CArr α :=
  intoLoop1A (scaleF s) a 0 (len a)

def addIntoAliasedFst {α : Type} [Field α] (a b : CArr α) : CArr α :=
  intoLoop2A addF b a 0 (len a)

def addIntoAliasedSnd {α : Type} [Field α] (a b : CArr α) : CArr α :=
  intoLoop2B addF a b 0 (len a)

def subIntoAliasedFst {α : Type} [Field α] (a b : CArr α) : CArr α :=
  intoLoop2A subF b a 0 (len a)

def subIntoAliasedSnd {α : Type} [Field α] (a b : CArr α) : CArr α :=
  intoLoop2B subF a b 0 (len a)

def mulIntoAliasedFst {α : Type} [Field α] (a b : CArr α) : CArr α :=
  intoLoop2A mulF b a 0 (len a)

def mulIntoAliasedSnd {α : Type} [Field α] (a b : CArr α) : CArr α :=
  intoLoop2B mulF a b 0 (len a)

def divIntoAliasedFst {α : Type} [Field α] (a b : CArr α) : CArr α :=
  intoLoop2A divF b a 0 (len a)

def divIntoAliasedSnd {α : Type} [Field α] (a b : CArr α) : CArr α :=
  intoLoop2B divF a b 0 (len a)

def mulScalarIntoAliased {α : Type} [Field α] (a : CArr α) (re im : α) : CArr α :=
  intoLoop1A (mulScalarF re im) a 0 (len a)

def divScalarIntoAliased {α : Type} [Field α] (a : CArr α) (re im : α) : CArr α :=
  mulScalarIntoAliased a (re / (re * re + im * im)) (-im / (re * re + im * im))

def conjIntoAliased {α : Type} [Field α] (a : CArr α) : CArr α :=
  intoLoop1A conjF a 0 (len a)

/-! Aliasing analysis.  `gLoop` is the common shape of all the write-into
loops once the values to write are abstracted into a function of the index;
every loop above reads only index `i` before writing index `i`, which is
exactly why the aliased runs coincide with the non-aliased ones. -/

def gLoop {α : Type} [Field α] (h : ℕ → α × α) : CArr α → ℕ → ℕ → CArr α
  | out, _, 0 => out
  | out, i, fuel + 1 => gLoop h (writePair out i (h i)) (i + 1) fuel

lemma readPair_writePair_ne {α : Type} [Field α] (c : CArr α) {i j : ℕ} (p : α × α)
    (h : i ≠ j) : readPair (writePair c i p) j = readPair c j := by
  unfold readPair writePair
  rw [getD_set_ne _ _ _ h, getD_set_ne _ _ _ h]

lemma intoLoop2A_eq_intoLoop2 {α : Type} [Field α] (f : α × α → α × α → α × α)
    (a b : CArr α) :
    ∀ (fuel i : ℕ) (s : CArr α), (∀ j, i ≤ j → readPair s j = readPair a j) →
      intoLoop2A f b s i fuel = intoLoop2 f a b s i fuel := by
  intro fuel
  induction fuel with
  | zero => intro i s _; rfl
  | succ fuel ih =>
      intro i s hagree
      show intoLoop2A f b (writePair s i (f (readPair s i) (readPair b i))) (i + 1) fuel
          = intoLoop2 f a b (writePair s i (f (readPair a i) (readPair b i))) (i + 1) fuel
      rw [hagree i le_rfl]
      apply ih
      intro j hj
      rw [readPair_writePair_ne _ _ (by omega), hagree j (by omega)]

lemma intoLoop2B_eq_intoLoop2 {α : Type} [Field α] (f : α × α → α × α → α × α)
    (a b : CArr α) :
    ∀ (fuel i : ℕ) (s : CArr α), (∀ j, i ≤ j → readPair s j = readPair b j) →
      intoLoop2B f a s i fuel = intoLoop2 f a b s i fuel := by
  intro fuel
  induction fuel with
  | zero => intro i s _; rfl
  | succ fuel ih =>
      intro i s hagree
      show intoLoop2B f a (writePair s i (f (readPair a i) (readPair s i))) (i + 1) fuel
          = intoLoop2 f a b (writePair s i (f (readPair a i) (readPair b i))) (i + 1) fuel
      rw [hagree i le_rfl]
      apply ih
      intro j hj
      rw [readPair_writePair_ne _ _ (by omega), hagree j (by omega)]

lemma intoLoop1A_eq_intoLoop1 {α : Type} [Field α] (g : α × α → α × α) (a : CArr α) :
    ∀ (fuel i : ℕ) (s : CArr α), (∀ j, i ≤ j → readPair s j = readPair a j) →
      intoLoop1A g s i fuel = intoLoop1 g a s i fuel := by
  intro fuel
  induction fuel with
  | zero => intro i s _; rfl
  | succ fuel ih =>
      intro i s hagree
      show intoLoop1A g (writePair s i (g (readPair s i))) (i + 1) fuel
          = intoLoop1 g a (writePair s i (g (readPair a i))) (i + 1) fuel
      rw [hagree i le_rfl]
      apply ih
      intro j hj
      rw [readPair_writePair_ne _ _ (by omega), hagree j (by omega)]

lemma intoLoop2_eq_gLoop {α : Type} [Field α] (f : α × α → α × α → α × α) (a b : CArr α) :
    ∀ (fuel i : ℕ) (out : CArr α),
      intoLoop2 f a b out i fuel = gLoop (fun k => f (readPair a k) (readPair b k)) out i fuel := by
  intro fuel
  induction fuel with
  | zero => intro i out; rfl
  | succ fuel ih => intro i out; exact ih (i + 1) _

lemma intoLoop1_eq_gLoop {α : Type} [Field α] (g : α × α → α × α) (a : CArr α) :
    ∀ (fuel i : ℕ) (out : CArr α),
      intoLoop1 g a out i fuel = gLoop (fun k => g (readPair a k)) out i fuel := by
  intro fuel
  induction fuel with
  | zero => intro i out; rfl
  | succ fuel ih => intro i out; exact ih (i + 1) _

lemma gLoop_real_length {α : Type} [Field α] (h : ℕ → α × α) :
    ∀ (fuel i : ℕ) (out : CArr α), (gLoop h out i fuel).real.length = out.real.length := by
  intro fuel
  induction fuel with
  | zero => intro i out; rfl
  | succ fuel ih =>
      intro i out
      show (gLoop h (writePair out i (h i)) (i + 1) fuel).real.length = _
      rw [ih]
      simp [writePair]

lemma gLoop_imag_length {α : Type} [Field α] (h : ℕ → α × α) :
    ∀ (fuel i : ℕ) (out : CArr α), (gLoop h out i fuel).imag.length = out.imag.length := by
  intro fuel
  induction fuel with
  | zero => intro i out; rfl
  | succ fuel ih =>
      intro i out
      show (gLoop h (writePair out i (h i)) (i + 1) fuel).imag.length = _
      rw [ih]
      simp [writePair]

lemma gLoop_real_getD {α : Type} [Field α] (h : ℕ → α × α) :
    ∀ (fuel i : ℕ) (out : CArr α) (j : ℕ),
      (gLoop h out i fuel).real.getD j 0 =
        if i ≤ j ∧ j < i + fuel ∧ j < out.real.length then (h j).1
        else out.real.getD j 0 := by
  intro fuel
  induction fuel with
  | zero =>
      intro i out j
      rw [if_neg (by omega)]
      rfl
  | succ fuel ih =>
      intro i out j
      show (gLoop h (writePair out i (h i)) (i + 1) fuel).real.getD j 0 = _
      rw [ih]
      have hlen : (writePair out i (h i)).real.length = out.real.length := by simp [writePair]
      by_cases hone : i + 1 ≤ j ∧ j < i + 1 + fuel ∧ j < (writePair out i (h i)).real.length
      · rw [if_pos hone, if_pos ⟨by omega, by omega, by rw [← hlen]; exact hone.2.2⟩]
      · rw [if_neg hone]
        by_cases hij : j = i
        · subst hij
          by_cases hlt : j < out.real.length
          · show (out.real.set j (h j).1).getD j 0 = _
            rw [getD_set_lt _ _ _ _ hlt, if_pos ⟨le_rfl, by omega, hlt⟩]
          · show (out.real.set j (h j).1).getD j 0 = _
            rw [List.set_eq_of_length_le (by omega), if_neg (by omega)]
        · show (out.real.set i (h i).1).getD j 0 = _
          rw [getD_set_ne _ _ _ (Ne.symm hij)]
          rw [hlen] at hone
          rw [if_neg (by omega)]

lemma gLoop_imag_getD {α : Type} [Field α] (h : ℕ → α × α) :
    ∀ (fuel i : ℕ) (out : CArr α) (j : ℕ),
      (gLoop h out i fuel).imag.getD j 0 =
        if i ≤ j ∧ j < i + fuel ∧ j < out.imag.length then (h j).2
        else out.imag.getD j 0 := by
  intro fuel
  induction fuel with
  | zero =>
      intro i out j
      rw [if_neg (by omega)]
      rfl
  | succ fuel ih =>
      intro i out j
      show (gLoop h (writePair out i (h i)) (i + 1) fuel).imag.getD j 0 = _
      rw [ih]
      have hlen : (writePair out i (h i)).imag.length = out.imag.length := by simp [writePair]
      by_cases hone : i + 1 ≤ j ∧ j < i + 1 + fuel ∧ j < (writePair out i (h i)).imag.length
      · rw [if_pos hone, if_pos ⟨by omega, by omega, by rw [← hlen]; exact hone.2.2⟩]
      · rw [if_neg hone]
        by_cases hij : j = i
        · subst hij
          by_cases hlt : j < out.imag.length
          · show (out.imag.set j (h j).2).getD j 0 = _
            rw [getD_set_lt _ _ _ _ hlt, if_pos ⟨le_rfl, by omega, hlt⟩]
          · show (out.imag.set j (h j).2).getD j 0 = _
            rw [List.set_eq_of_length_le (by omega), if_neg (by omega)]
        · show (out.imag.set i (h i).2).getD j 0 = _
          rw [getD_set_ne _ _ _ (Ne.symm hij)]
          rw [hlen] at hone
          rw [if_neg (by omega)]

/-- A full run (`i = 0`, `fuel = n`) of a write loop over buffers whose
components all have length `n` overwrites every entry, so the initial
contents of the output buffer are irrelevant. -/
lemma gLoop_run_eq {α : Type} [Field α] (h : ℕ → α × α) (n : ℕ) (out out' : CArr α)
    (h1 : out.real.length = n) (h2 : out.imag.length = n)
    (h3 : out'.real.length = n) (h4 : out'.imag.length = n) :
    gLoop h out 0 n = gLoop h out' 0 n := by
  have hre : (gLoop h out 0 n).real = (gLoop h out' 0 n).real := by
    apply List.ext_getElem (by rw [gLoop_real_length, gLoop_real_length, h1, h3])
    intro i hi1 hi2
    have hi : i < n := by rw [gLoop_real_length, h1] at hi1; exact hi1
    rw [← List.getD_eq_getElem _ 0 hi1, ← List.getD_eq_getElem _ 0 hi2,
      gLoop_real_getD, gLoop_real_getD,
      if_pos ⟨Nat.zero_le _, by omega, by omega⟩, if_pos ⟨Nat.zero_le _, by omega, by omega⟩]
  have him : (gLoop h out 0 n).imag = (gLoop h out' 0 n).imag := by
    apply List.ext_getElem (by rw [gLoop_imag_length, gLoop_imag_length, h2, h4])
    intro i hi1 hi2
    have hi : i < n := by rw [gLoop_imag_length, h2] at hi1; exact hi1
    rw [← List.getD_eq_getElem _ 0 hi1, ← List.getD_eq_getElem _ 0 hi2,
      gLoop_imag_getD, gLoop_imag_getD,
      if_pos ⟨Nat.zero_le _, by omega, by omega⟩, if_pos ⟨Nat.zero_le _, by omega, by omega⟩]
  cases hgl : gLoop h out 0 n with
  | mk r i =>
      cases hgl' : gLoop h out' 0 n with
      | mk r' i' =>
          rw [hgl, hgl'] at hre him
          simp only at hre him
          rw [hre, him]

lemma aliasedFst_eq {α : Type} [Field α] (f : α × α → α × α → α × α) (a b : CArr α)
    (him : a.imag.length = a.real.length) :
    intoLoop2A f b a 0 (len a) = intoLoop2 f a b (alloc (len a)) 0 (len a) := by
  rw [intoLoop2A_eq_intoLoop2 f a b (len a) 0 a fun j _ => rfl,
    intoLoop2_eq_gLoop, intoLoop2_eq_gLoop]
  exact gLoop_run_eq _ (len a) a (alloc (len a)) rfl him (by simp [alloc]) (by simp [alloc])

lemma aliasedSnd_eq {α : Type} [Field α] (f : α × α → α × α → α × α) (a b : CArr α)
    (hbr : b.real.length = len a) (hbi : b.imag.length = len a) :
    intoLoop2B f a b 0 (len a) = intoLoop2 f a b (alloc (len a)) 0 (len a) := by
  rw [intoLoop2B_eq_intoLoop2 f a b (len a) 0 b fun j _ => rfl,
    intoLoop2_eq_gLoop, intoLoop2_eq_gLoop]
  exact gLoop_run_eq _ (len a) b (alloc (len a)) hbr hbi (by simp [alloc]) (by simp [alloc])

lemma aliasedUnary_eq {α : Type} [Field α] (g : α × α → α × α) (a : CArr α)
    (him : a.imag.length = a.real.length) :
    intoLoop1A g a 0 (len a) = intoLoop1 g a (alloc (len a)) 0 (len a) := by
  rw [intoLoop1A_eq_intoLoop1 g a (len a) 0 a fun j _ => rfl,
    intoLoop1_eq_gLoop, intoLoop1_eq_gLoop]
  exact gLoop_run_eq _ (len a) a (alloc (len a)) rfl him (by simp [alloc]) (by simp [alloc])

/-- The contents claimed equal by C8: every aliased write-into run equals
the allocating form on the original inputs. -/
def AliasingOk {α : Type} [Field α] (a b : CArr α) (s re im : α) : Prop :=
  scaleIntoAliased a s = scale a s ∧
  addIntoAliasedFst a b = add a b ∧ addIntoAliasedSnd a b = add a b ∧
  subIntoAliasedFst a b = sub a b ∧ subIntoAliasedSnd a b = sub a b ∧
  mulIntoAliasedFst a b = mul a b ∧ mulIntoAliasedSnd a b = mul a b ∧
  divIntoAliasedFst a b = div a b ∧ divIntoAliasedSnd a b = div a b ∧
  mulScalarIntoAliased a re im = mulScalar a re im ∧
  divScalarIntoAliased a re im = divScalar a re im ∧
  conjIntoAliased a = conj a ∧
  copyInto a a = copy a

/-- C8.  For every arithmetic write-into operation and equal-length
well-formed inputs, executing it with the output buffer aliased to one of
the input buffers produces exactly the buffer the allocating form produces
from the original inputs: each iteration reads index `i` before writing it,
so the values read are the original ones. -/
theorem write_into_aliasing_safe {α : Type} [Field α] (a b : CArr α) (s re im : α)
    (ha : a.imag.length = a.real.length)
    (hbr : b.real.length = a.real.length) (hbi : b.imag.length = a.real.length) :
    AliasingOk a b s re im := by
  have hbr' : b.real.length = len a := hbr
  have hbi' : b.imag.length = len a := hbi
  refine ⟨?_, ?_, ?_, ?_, ?_, ?_, ?_, ?_, ?_, ?_, ?_, ?_, ?_⟩
  · exact aliasedUnary_eq (scaleF s) a ha
  · exact aliasedFst_eq addF a b ha
  · exact aliasedSnd_eq addF a b hbr' hbi'
  · exact aliasedFst_eq subF a b ha
  · exact aliasedSnd_eq subF a b hbr' hbi'
  · exact aliasedFst_eq mulF a b ha
  · exact aliasedSnd_eq mulF a b hbr' hbi'
  · exact aliasedFst_eq divF a b ha
  · exact aliasedSnd_eq divF a b hbr' hbi'
  · exact aliasedUnary_eq (mulScalarF re im) a ha
  · exact aliasedUnary_eq (mulScalarF (re / (re * re + im * im)) (-im / (re * re + im * im))) a ha
  · exact aliasedUnary_eq conjF a ha
  · show (⟨typedSet a.real a.real, typedSet a.imag a.imag⟩ : CArr α) = copy a
    rw [copy, typedSet, typedSet, List.drop_length, List.drop_length,
      List.append_nil, List.append_nil]

/-- Witness for C8: concrete rational buffers of length 2. -/
theorem write_into_aliasing_witness :
    AliasingOk (⟨[1, 2], [3, 4]⟩ : CArr ℚ) ⟨[5, 6], [7, 8]⟩ 2 1 2 :=
  write_into_aliasing_safe ⟨[1, 2], [3, 4]⟩ ⟨[5, 6], [7, 8]⟩ 2 1 2 (by decide) (by decide)
    (by decide)

/-! ### C5: error behaviour of the elementwise arithmetic ops.

A TypeScript function may throw; `add`/`sub`/`mul`/`div` and their
write-into forms contain no length guard and no `throw` at all, so their
`Except`-level embeddings always return `ok`.  (On unequal lengths the JS
loop reads `undefined` past the end of the shorter operand and stores NaNs;
a result buffer of length `len(a)` is still produced and returned.) -/

def addE {α : Type} [Field α] (a b : CArr α) : Except DspError (CArr α) := .ok (add a b)

def subE {α : Type} [Field α] (a b : CArr α) : Except DspError (CArr α) := .ok (sub a b)

def mulE {α : Type} [Field α] (a b : CArr α) : Except DspError (CArr α) := .ok (mul a b)

def divE {α : Type} [Field α] (a b : CArr α) : Except DspError (CArr α) := .ok (div a b)

def addIntoE {α : Type} [Field α] (a b out : CArr α) : Except DspError (CArr α) :=
  .ok (addInto a b out)

def subIntoE {α : Type} [Field α] (a b out : CArr α) : Except DspError (CArr α) :=
  .ok (subInto a b out)

def mulIntoE {α : Type} [Field α] (a b out : CArr α) : Except DspError (CArr α) :=
  .ok (mulInto a b out)

def divIntoE {α : Type} [Field α] (a b out : CArr α) : Except DspError (CArr α) :=
  .ok (divInto a b out)

/-- Counterexample to C5 as stated: for the concrete unequal-length pair
`a = ([1],[2])`, `b = ([],[])` every elementwise op — allocating and
write-into — returns `ok` (a result), not an `InvalidLength` error. -/
theorem unequal_length_ops_return_ok :
    len (⟨[1], [2]⟩ : CArr ℚ) ≠ len (⟨[], []⟩ : CArr ℚ) ∧
    (addE (⟨[1], [2]⟩ : CArr ℚ) ⟨[], []⟩).isOk = true ∧
    (subE (⟨[1], [2]⟩ : CArr ℚ) ⟨[], []⟩).isOk = true ∧
    (mulE (⟨[1], [2]⟩ : CArr ℚ) ⟨[], []⟩).isOk = true ∧
    (divE (⟨[1], [2]⟩ : CArr ℚ) ⟨[], []⟩).isOk = true ∧
    (addIntoE (⟨[1], [2]⟩ : CArr ℚ) ⟨[], []⟩ ⟨[0], [0]⟩).isOk = true ∧
    (subIntoE (⟨[1], [2]⟩ : CArr ℚ) ⟨[], []⟩ ⟨[0], [0]⟩).isOk = true ∧
    (mulIntoE (⟨[1], [2]⟩ : CArr ℚ) ⟨[], []⟩ ⟨[0], [0]⟩).isOk = true ∧
    (divIntoE (⟨[1], [2]⟩ : CArr ℚ) ⟨[], []⟩ ⟨[0], [0]⟩).isOk = true := by
  decide

/-- C5 (amended).  The elementwise arithmetic ops perform no length
validation at all: for EVERY pair of buffers — equal-length or not — each
op returns `ok` with a result, and the allocating forms produce a buffer of
the first operand's length `len(a)`.  (On unequal lengths JS fills the
missing reads with `undefined`/NaN rather than failing.) -/
theorem arith_ops_never_fail {α : Type} [Field α] (a b out : CArr α) :
    (addE a b).isOk = true ∧ (subE a b).isOk = true ∧
    (mulE a b).isOk = true ∧ (divE a b).isOk = true ∧
    (addIntoE a b out).isOk = true ∧ (subIntoE a b out).isOk = true ∧
    (mulIntoE a b out).isOk = true ∧ (divIntoE a b out).isOk = true ∧
    len (add a b) = len a ∧ len (sub a b) = len a ∧
    len (mul a b) = len a ∧ len (div a b) = len a := by
  refine ⟨rfl, rfl, rfl, rfl, rfl, rfl, rfl, rfl, ?_, ?_, ?_, ?_⟩
  · show (intoLoop2 addF a b (alloc (len a)) 0 (len a)).real.length = len a
    rw [intoLoop2_eq_gLoop, gLoop_real_length]
    simp [alloc]
  · show (intoLoop2 subF a b (alloc (len a)) 0 (len a)).real.length = len a
    rw [intoLoop2_eq_gLoop, gLoop_real_length]
    simp [alloc]
  · show (intoLoop2 mulF a b (alloc (len a)) 0 (len a)).real.length = len a
    rw [intoLoop2_eq_gLoop, gLoop_real_length]
    simp [alloc]
  · show (intoLoop2 divF a b (alloc (len a)) 0 (len a)).real.length = len a
    rw [intoLoop2_eq_gLoop, gLoop_real_length]
    simp [alloc]

/-! ### Spectrum pipeline (src/public/spectrum.ts and src/xform/fourier.ts) -/

inductive WindowType where
  | rect
  | hann
  | hamming
  | blackman
  deriving DecidableEq

inductive FftSides where
  | one
  | two
  deriving DecidableEq

structure SpectrumOptions where
  sampleRate : Option ℝ
  fftSize : Option ℕ
  window : Option WindowType
  sides : Option FftSides

structure SpectrumPeak (α : Type) where
  index : ℕ
  frequency : α
  amplitude : α
  phase : α
  deriving DecidableEq

structure SpectrumResult where
  frequencies : List ℝ
  amplitude : List ℝ
  phase : List ℝ
  peak : SpectrumPeak ℝ

/-- Model of `isPowerOfTwo(n) = n > 0 && (n & (n - 1)) === 0` (src/core/fft.ts). -/
def isPowerOfTwo (n : ℕ) : Bool := decide (0 < n) && (n &&& (n - 1) == 0)

/-- The `while (p < n) p <<= 1` loop of `nextPowerOfTwo`, with explicit
fuel (`n` steps are amply sufficient: `2^n ≥ n`). -/
def nptLoop : ℕ → ℕ → ℕ → ℕ
  | 0, _, p => p
  | fuel + 1, n, p => if p < n then nptLoop fuel n (2 * p) else p

def nextPowerOfTwo (n : ℕ) : ℕ := if n ≤ 1 then 1 else nptLoop n n 1

/-- Model of `createWindow` (src/xform/fourier.ts).  A size `≤ 0` (here: `size = 0`,
sizes being ℕ) throws; `size = 1` short-circuits to `[1]`; otherwise the
standard closed-form coefficients with denominator `size - 1`. -/
noncomputable def createWindow (t : WindowType) (size : ℕ) : Except DspError (List ℝ) :=
  if size = 0 then .error .invalidSize
  else if size = 1 then .ok [1]
  else .ok ((List.range size).map fun i =>
    match t with
    | .rect => 1
    | .hann => 0.5 * (1 - Real.cos ((2 * Real.pi * i) / ((size : ℝ) - 1)))
    | .hamming => 0.54 - 0.46 * Real.cos ((2 * Real.pi * i) / ((size : ℝ) - 1))
    | .blackman =>
        0.42 - 0.5 * Real.cos ((2 * Real.pi * i) / ((size : ℝ) - 1))
          + 0.08 * Real.cos (2 * ((2 * Real.pi * i) / ((size : ℝ) - 1))))

/-- Model of `buildFrame`: copy `min(size, input.length)` samples, zero-fill the
rest (oversized inputs are truncated). -/
def buildFrame (input : List ℝ) (size : ℕ) : List ℝ :=
  (List.range size).map fun i => if i < min size input.length then input.getD i 0 else 0

/-- Exact-arithmetic `Math.hypot(x, y)`. -/
noncomputable def hypotR (x y : ℝ) : ℝ := Real.sqrt (x ^ 2 + y ^ 2)

/-- Exact `Math.atan2(y, x)`: the argument of `x + iy` in `(-π, π]`. -/
noncomputable def atan2R (y x : ℝ) : ℝ := Complex.arg ⟨x, y⟩

/-- Model of `magnitude` (src/xform/fourier.ts): elementwise `hypot` over the
`input.real.length` entries. -/
noncomputable def magnitudeList (a : CArr ℝ) : List ℝ :=
  (List.range a.real.length).map fun i => hypotR (a.real.getD i 0) (a.imag.getD i 0)

/-- Model of `phase` (src/xform/fourier.ts): elementwise `atan2(imag, real)`. -/
noncomputable def phaseList (a : CArr ℝ) : List ℝ :=
  (List.range a.real.length).map fun i => atan2R (a.imag.getD i 0) (a.real.getD i 0)

/-- Model of `scaleAmplitudeOneSided` (src/public/spectrum.ts): `binCount = ⌊N/2⌋+1`
bins; DC and (for even N) Nyquist get `mag/N`, the rest `2·mag/N`.  The
source's `nyquist` is `-1` for odd `N`, so `k === nyquist` is then never
true — rendered here as the conjunction `N % 2 = 0 ∧ k = N / 2`. -/
def scaleAmplitudeOneSided {α : Type} [Field α] (magnitudes : List α) (size : ℕ) : List α :=
  (List.range (size / 2 + 1)).map fun k =>
    if k = 0 ∨ (size % 2 = 0 ∧ k = size / 2) then magnitudes.getD k 0 / (size : α)
    else 2 * magnitudes.getD k 0 / (size : α)

def scaleAmplitudeTwoSided {α : Type} [Field α] (magnitudes : List α) (size : ℕ) : List α :=
  (List.range size).map fun k => magnitudes.getD k 0 / (size : α)

/-- Model of `binFrequencies` (src/xform/fourier.ts): `freq[i] = i · (sampleRate/size)`
over `⌊N/2⌋+1` (one-sided) or `N` (two-sided) bins; non-positive size or
sample rate fail. -/
noncomputable def binFrequencies (size : ℕ) (sampleRate : ℝ) (sides : FftSides) :
    Except DspError (List ℝ) :=
  if size = 0 then .error .invalidSize
  else if sampleRate ≤ 0 then .error .invalidArgument
  else
    let binCount := match sides with
      | .one => size / 2 + 1
      | .two => size
    .ok ((List.range binCount).map fun i => i * (sampleRate / size))

/-- The loop state of `findPeak`. -/
structure PeakScan (α : Type) where
  maxIndex : ℕ
  maxValue : α
  hasNonDc : Bool
  nonDcIndex : ℕ
  nonDcValue : α

/-- One iteration of the `findPeak` scan at index `i`
(`v > x` is written `x < v`). -/
def peakStep {α : Type} [LinearOrderedField α] (amplitude : List α) (st : PeakScan α)
    (i : ℕ) : PeakScan α :=
  let v := amplitude.getD i 0
  let st1 := if st.nonDcValue < v then { st with nonDcValue := v, nonDcIndex := i } else st
  let st2 := if 0 < v then { st1 with hasNonDc := true } else st1
  if st2.maxValue < v then { st2 with maxValue := v, maxIndex := i } else st2

def peakLoop {α : Type} [LinearOrderedField α] (amplitude : List α) :
    ℕ → ℕ → PeakScan α → PeakScan α
  | 0, _, st => st
  | fuel + 1, i, st => peakLoop amplitude fuel (i + 1) (peakStep amplitude st i)

/-- Model of `findPeak` (src/public/spectrum.ts): scan `i = 1 .. length-1`, then
select `nonDcIndex` when some non-DC bin was strictly positive, else the
overall `maxIndex`; `phase` is filled with `0` here and patched by the
caller. -/
def findPeak {α : Type} [LinearOrderedField α] (amplitude frequencies : List α) :
    SpectrumPeak α :=
  let st0 : PeakScan α := ⟨0, amplitude.getD 0 0, false, 0, 0⟩
  let st := peakLoop amplitude (amplitude.length - 1) 1 st0
  let index := if st.hasNonDc then st.nonDcIndex else st.maxIndex
  ⟨index, frequencies.getD index 0, amplitude.getD index 0, 0⟩

/-- Model of `spectrum` (src/public/spectrum.ts).  Option defaults, the FFT
constructor's power-of-two gate, window construction, frame assembly,
windowing, forward transform (`Nat.log2 targetSize` is the exact exponent
on the non-error path), magnitude/phase, sided amplitude scaling, phase
truncation, frequency axis, peak detection with the phase patch
`peak.phase = phaseBins[peak.index] ?? 0`. -/
noncomputable def spectrum (samples : List ℝ) (options : SpectrumOptions) :
    Except DspError SpectrumResult :=
  let sampleRate := options.sampleRate.getD 1
  let sides := options.sides.getD .one
  let targetSize := options.fftSize.getD (nextPowerOfTwo samples.length)
  if isPowerOfTwo targetSize then
    match createWindow (options.window.getD .rect) targetSize with
    | .error e => .error e
    | .ok window =>
      match applyWindowBuf (buildFrame samples targetSize) window none with
      | .error e => .error e
      | .ok windowed =>
        let y := fftTransform (Nat.log2 targetSize) false fun i => ((windowed.getD i 0 : ℝ) : ℂ)
        let spectrumComplex : CArr ℝ :=
          ⟨(List.range targetSize).map fun i => (y i).re,
           (List.range targetSize).map fun i => (y i).im⟩
        let mag := magnitudeList spectrumComplex
        let ang := phaseList spectrumComplex
        let amplitude := match sides with
          | .one => scaleAmplitudeOneSided mag targetSize
          | .two => scaleAmplitudeTwoSided mag targetSize
        let phaseBins := match sides with
          | .one => ang.take (targetSize / 2 + 1)
          | .two => ang
        match binFrequencies targetSize sampleRate sides with
        | .error e => .error e
        | .ok frequencies =>
          let peak0 := findPeak amplitude frequencies
          .ok ⟨frequencies, amplitude, phaseBins,
            { peak0 with phase := phaseBins.getD peak0.index 0 }⟩
  else .error .invalidSize

/-- C3.  One-sided amplitude scaling of a size-`N` spectrum: the output has
`⌊N/2⌋ + 1` bins; bin 0 gets `|X[0]|/N`; when `N` is even, bin `N/2` gets
`|X[N/2]|/N` with no doubling; every other bin `k` gets `2·|X[k]|/N`
(`magnitudes` playing the role of `|X|`). -/
theorem one_sided_scaling_spec {α : Type} [Field α] (magnitudes : List α) (N : ℕ) :
    (scaleAmplitudeOneSided magnitudes N).length = N / 2 + 1 ∧
    (scaleAmplitudeOneSided magnitudes N).getD 0 0 = magnitudes.getD 0 0 / (N : α) ∧
    (N % 2 = 0 →
      (scaleAmplitudeOneSided magnitudes N).getD (N / 2) 0
        = magnitudes.getD (N / 2) 0 / (N : α)) ∧
    (∀ k, k < N / 2 + 1 → k ≠ 0 → ¬(N % 2 = 0 ∧ k = N / 2) →
      (scaleAmplitudeOneSided magnitudes N).getD k 0 = 2 * magnitudes.getD k 0 / (N : α)) := by
  refine ⟨by simp [scaleAmplitudeOneSided], ?_, ?_, ?_⟩
  · rw [scaleAmplitudeOneSided, getD_map_range _ _ _ _ (by omega), if_pos (Or.inl rfl)]
  · intro heven
    rw [scaleAmplitudeOneSided, getD_map_range _ _ _ _ (by omega),
      if_pos (Or.inr ⟨heven, rfl⟩)]
  · intro k hk hk0 hkn
    rw [scaleAmplitudeOneSided, getD_map_range _ _ _ _ hk,
      if_neg (by tauto)]

/-- Witness for C3 over `ℚ`: `N = 4`, magnitudes `[4, 6, 8]`. -/
theorem one_sided_scaling_witness :
    (scaleAmplitudeOneSided ([4, 6, 8] : List ℚ) 4).getD 0 0 = 1 ∧
    (scaleAmplitudeOneSided ([4, 6, 8] : List ℚ) 4).getD 2 0 = 2 ∧
    (scaleAmplitudeOneSided ([4, 6, 8] : List ℚ) 4).getD 1 0 = 3 := by
  have h := one_sided_scaling_spec ([4, 6, 8] : List ℚ) 4
  refine ⟨?_, ?_, ?_⟩
  · have := h.2.1
    norm_num at this ⊢
    exact this
  · have := h.2.2.1 (by norm_num)
    norm_num at this ⊢
    exact this
  · have := h.2.2.2 1 (by norm_num) (by norm_num) (by norm_num)
    norm_num at this ⊢
    exact this

/-! #### The `findPeak` scan invariant -/

/-- What the scan state means after the indices `[1, i)` have been
processed: `nonDcValue` bounds the processed non-DC amplitudes (it starts
at 0 and only increases); when positive it is attained at `nonDcIndex`,
the FIRST index attaining it (every earlier non-DC amplitude is strictly
smaller); `hasNonDc` records whether some processed amplitude is strictly
positive; and `maxIndex`/`maxValue` track the first overall maximum,
starting from bin 0. -/
def ScanInv {α : Type} [LinearOrderedField α] (amp : List α) (i : ℕ) (st : PeakScan α) :
    Prop :=
  0 ≤ st.nonDcValue ∧
  (∀ k, 1 ≤ k → k < i → amp.getD k 0 ≤ st.nonDcValue) ∧
  ((st.nonDcIndex = 0 ∧ st.nonDcValue = 0) ∨
    (1 ≤ st.nonDcIndex ∧ st.nonDcIndex < i ∧ amp.getD st.nonDcIndex 0 = st.nonDcValue ∧
      0 < st.nonDcValue ∧
      ∀ k, 1 ≤ k → k < st.nonDcIndex → amp.getD k 0 < st.nonDcValue)) ∧
  (st.hasNonDc = true ↔ ∃ k, 1 ≤ k ∧ k < i ∧ 0 < amp.getD k 0) ∧
  amp.getD st.maxIndex 0 = st.maxValue ∧
  st.maxIndex < i ∧
  (∀ k, k < i → amp.getD k 0 ≤ st.maxValue) ∧
  (∀ k, k < st.maxIndex → amp.getD k 0 < st.maxValue)

lemma scanInv_base {α : Type} [LinearOrderedField α] (amp : List α) :
    ScanInv amp 1 ⟨0, amp.getD 0 0, false, 0, 0⟩ := by
  refine ⟨le_rfl, ?_, Or.inl ⟨rfl, rfl⟩, ?_, rfl, Nat.zero_lt_one, ?_, ?_⟩
  · intro k hk1 hk2
    omega
  · constructor
    · intro h
      exact absurd h (by simp)
    · rintro ⟨k, hk1, hk2, _⟩
      omega
  · intro k hk
    interval_cases k
    exact le_rfl
  · intro k hk
    exact absurd hk (Nat.not_lt_zero k)

/-- Flat normal form of one scan step: each field is its own conditional
(the three `if`s of the source touch disjoint fields). -/
lemma peakStep_def {α : Type} [LinearOrderedField α] (amp : List α) (st : PeakScan α)
    (i : ℕ) :
    peakStep amp st i =
      ⟨(if st.maxValue < amp.getD i 0 then i else st.maxIndex),
       (if st.maxValue < amp.getD i 0 then amp.getD i 0 else st.maxValue),
       (if 0 < amp.getD i 0 then true else st.hasNonDc),
       (if st.nonDcValue < amp.getD i 0 then i else st.nonDcIndex),
       (if st.nonDcValue < amp.getD i 0 then amp.getD i 0 else st.nonDcValue)⟩ := by
  rw [peakStep]
  by_cases hA : st.nonDcValue < amp.getD i 0 <;>
    by_cases hB : 0 < amp.getD i 0 <;>
      by_cases hC : st.maxValue < amp.getD i 0 <;>
        simp only [hA, hB, hC, if_true, if_false]

lemma peakStep_inv {α : Type} [LinearOrderedField α] (amp : List α) (i : ℕ)
    (st : PeakScan α) (hi : 1 ≤ i) (h : ScanInv amp i st) :
    ScanInv amp (i + 1) (peakStep amp st i) := by
  obtain ⟨h1, h2, h3, h4, h5, h6, h7, h8⟩ := h
  rw [peakStep_def]
  by_cases hA : st.nonDcValue < amp.getD i 0
  · have hB : 0 < amp.getD i 0 := lt_of_le_of_lt h1 hA
    by_cases hC : st.maxValue < amp.getD i 0
    · rw [if_pos hC, if_pos hC, if_pos hB, if_pos hA, if_pos hA]
      refine ⟨?_, ?_, ?_, ?_, ?_, ?_, ?_, ?_⟩
      · exact le_of_lt hB
      · intro k hk1 hk2
        rcases Nat.lt_succ_iff_lt_or_eq.mp hk2 with hlt | heq
        · exact le_trans (h2 k hk1 hlt) (le_of_lt hA)
        · subst heq; exact le_rfl
      · refine Or.inr ⟨hi, Nat.lt_succ_self i, rfl, hB, ?_⟩
        intro k hk1 hk2
        exact lt_of_le_of_lt (h2 k hk1 hk2) hA
      · exact ⟨fun _ => ⟨i, hi, Nat.lt_succ_self i, hB⟩, fun _ => rfl⟩
      · rfl
      · exact Nat.lt_succ_self i
      · intro k hk
        rcases Nat.lt_succ_iff_lt_or_eq.mp hk with hlt | heq
        · exact le_trans (h7 k hlt) (le_of_lt hC)
        · subst heq; exact le_rfl
      · intro k hk
        exact lt_of_le_of_lt (h7 k hk) hC
    · rw [if_neg hC, if_neg hC, if_pos hB, if_pos hA, if_pos hA]
      refine ⟨?_, ?_, ?_, ?_, ?_, ?_, ?_, ?_⟩
      · exact le_of_lt hB
      · intro k hk1 hk2
        rcases Nat.lt_succ_iff_lt_or_eq.mp hk2 with hlt | heq
        · exact le_trans (h2 k hk1 hlt) (le_of_lt hA)
        · subst heq; exact le_rfl
      · refine Or.inr ⟨hi, Nat.lt_succ_self i, rfl, hB, ?_⟩
        intro k hk1 hk2
        exact lt_of_le_of_lt (h2 k hk1 hk2) hA
      · exact ⟨fun _ => ⟨i, hi, Nat.lt_succ_self i, hB⟩, fun _ => rfl⟩
      · exact h5
      · exact lt_trans h6 (Nat.lt_succ_self i)
      · intro k hk
        rcases Nat.lt_succ_iff_lt_or_eq.mp hk with hlt | heq
        · exact h7 k hlt
        · subst heq; exact le_of_not_lt hC
      · exact h8
  · have hpres3 :
        (st.nonDcIndex = 0 ∧ st.nonDcValue = 0) ∨
          (1 ≤ st.nonDcIndex ∧ st.nonDcIndex < i + 1 ∧
            amp.getD st.nonDcIndex 0 = st.nonDcValue ∧ 0 < st.nonDcValue ∧
            ∀ k, 1 ≤ k → k < st.nonDcIndex → amp.getD k 0 < st.nonDcValue) := by
      rcases h3 with ⟨hz1, hz2⟩ | ⟨hp1, hp2, hp3, hp4, hp5⟩
      · exact Or.inl ⟨hz1, hz2⟩
      · exact Or.inr ⟨hp1, lt_trans hp2 (Nat.lt_succ_self i), hp3, hp4, hp5⟩
    have hpres2 : ∀ k, 1 ≤ k → k < i + 1 → amp.getD k 0 ≤ st.nonDcValue := by
      intro k hk1 hk2
      rcases Nat.lt_succ_iff_lt_or_eq.mp hk2 with hlt | heq
      · exact h2 k hk1 hlt
      · subst heq; exact le_of_not_lt hA
    by_cases hB : 0 < amp.getD i 0
    · by_cases hC : st.maxValue < amp.getD i 0
      · rw [if_pos hC, if_pos hC, if_pos hB, if_neg hA, if_neg hA]
        refine ⟨?_, ?_, ?_, ?_, ?_, ?_, ?_, ?_⟩
        · exact h1
        · exact hpres2
        · exact hpres3
        · exact ⟨fun _ => ⟨i, hi, Nat.lt_succ_self i, hB⟩, fun _ => rfl⟩
        · rfl
        · exact Nat.lt_succ_self i
        · intro k hk
          rcases Nat.lt_succ_iff_lt_or_eq.mp hk with hlt | heq
          · exact le_trans (h7 k hlt) (le_of_lt hC)
          · subst heq; exact le_rfl
        · intro k hk
          exact lt_of_le_of_lt (h7 k hk) hC
      · rw [if_neg hC, if_neg hC, if_pos hB, if_neg hA, if_neg hA]
        refine ⟨?_, ?_, ?_, ?_, ?_, ?_, ?_, ?_⟩
        · exact h1
        · exact hpres2
        · exact hpres3
        · exact ⟨fun _ => ⟨i, hi, Nat.lt_succ_self i, hB⟩, fun _ => rfl⟩
        · exact h5
        · exact lt_trans h6 (Nat.lt_succ_self i)
        · intro k hk
          rcases Nat.lt_succ_iff_lt_or_eq.mp hk with hlt | heq
          · exact h7 k hlt
          · subst heq; exact le_of_not_lt hC
        · exact h8
    · have hpres4 :
          st.hasNonDc = true ↔ ∃ k, 1 ≤ k ∧ k < i + 1 ∧ 0 < amp.getD k 0 := by
        constructor
        · intro hh
          obtain ⟨k, hk1, hk2, hk3⟩ := h4.mp hh
          exact ⟨k, hk1, lt_trans hk2 (Nat.lt_succ_self i), hk3⟩
        · rintro ⟨k, hk1, hk2, hk3⟩
          rcases Nat.lt_succ_iff_lt_or_eq.mp hk2 with hlt | heq
          · exact h4.mpr ⟨k, hk1, hlt, hk3⟩
          · subst heq; exact absurd hk3 hB
      by_cases hC : st.maxValue < amp.getD i 0
      · rw [if_pos hC, if_pos hC, if_neg hB, if_neg hA, if_neg hA]
        refine ⟨?_, ?_, ?_, ?_, ?_, ?_, ?_, ?_⟩
        · exact h1
        · exact hpres2
        · exact hpres3
        · exact hpres4
        · rfl
        · exact Nat.lt_succ_self i
        · intro k hk
          rcases Nat.lt_succ_iff_lt_or_eq.mp hk with hlt | heq
          · exact le_trans (h7 k hlt) (le_of_lt hC)
          · subst heq; exact le_rfl
        · intro k hk
          exact lt_of_le_of_lt (h7 k hk) hC
      · rw [if_neg hC, if_neg hC, if_neg hB, if_neg hA, if_neg hA]
        refine ⟨?_, ?_, ?_, ?_, ?_, ?_, ?_, ?_⟩
        · exact h1
        · exact hpres2
        · exact hpres3
        · exact hpres4
        · exact h5
        · exact lt_trans h6 (Nat.lt_succ_self i)
        · intro k hk
          rcases Nat.lt_succ_iff_lt_or_eq.mp hk with hlt | heq
          · exact h7 k hlt
          · subst heq; exact le_of_not_lt hC
        · exact h8

lemma peakLoop_inv {α : Type} [LinearOrderedField α] (amp : List α) :
    ∀ (fuel i : ℕ) (st : PeakScan α), 1 ≤ i → ScanInv amp i st →
      ScanInv amp (i + fuel) (peakLoop amp fuel i st) := by
  intro fuel
  induction fuel with
  | zero => intro i st _ h; exact h
  | succ fuel ih =>
      intro i st hi h
      have h' := ih (i + 1) (peakStep amp st i) (by omega) (peakStep_inv amp i st hi h)
      rw [show i + (fuel + 1) = i + 1 + fuel by omega]
      exact h'

/-- The scan state `findPeak` ends with. -/
def peakScanOf {α : Type} [LinearOrderedField α] (amp : List α) : PeakScan α :=
  peakLoop amp (amp.length - 1) 1 ⟨0, amp.getD 0 0, false, 0, 0⟩

lemma findPeak_index {α : Type} [LinearOrderedField α] (amp freq : List α) :
    (findPeak amp freq).index =
      if (peakScanOf amp).hasNonDc then (peakScanOf amp).nonDcIndex
      else (peakScanOf amp).maxIndex := rfl

lemma findPeak_frequency {α : Type} [LinearOrderedField α] (amp freq : List α) :
    (findPeak amp freq).frequency = freq.getD (findPeak amp freq).index 0 := rfl

lemma findPeak_amplitude {α : Type} [LinearOrderedField α] (amp freq : List α) :
    (findPeak amp freq).amplitude = amp.getD (findPeak amp freq).index 0 := rfl

lemma findPeak_scan {α : Type} [LinearOrderedField α] (amp : List α) :
    ScanInv amp (max amp.length 1) (peakScanOf amp) := by
  have h := peakLoop_inv amp (amp.length - 1) 1 ⟨0, amp.getD 0 0, false, 0, 0⟩ le_rfl
    (scanInv_base amp)
  rw [show 1 + (amp.length - 1) = max amp.length 1 by omega] at h
  exact h

/-- When some non-DC bin is strictly positive, `findPeak` selects the first
index attaining the maximum over `k ≥ 1`. -/
lemma findPeak_pos_case {α : Type} [LinearOrderedField α] (amp freq : List α)
    (h : ∃ k, 1 ≤ k ∧ k < amp.length ∧ 0 < amp.getD k 0) :
    1 ≤ (findPeak amp freq).index ∧ (findPeak amp freq).index < amp.length ∧
    (∀ k, 1 ≤ k → k < amp.length →
      amp.getD k 0 ≤ amp.getD (findPeak amp freq).index 0) ∧
    (∀ k, 1 ≤ k → k < (findPeak amp freq).index →
      amp.getD k 0 < amp.getD (findPeak amp freq).index 0) := by
  obtain ⟨k0, hk1, hk2, hk3⟩ := h
  have hmax : max amp.length 1 = amp.length := by omega
  have hs := findPeak_scan amp
  rw [hmax] at hs
  obtain ⟨s1, s2, s3, s4, s5, s6, s7, s8⟩ := hs
  have hnd : (peakScanOf amp).hasNonDc = true := s4.mpr ⟨k0, hk1, hk2, hk3⟩
  have hidx : (findPeak amp freq).index = (peakScanOf amp).nonDcIndex := by
    rw [findPeak_index, hnd]
    exact if_pos rfl
  have hpos : 0 < (peakScanOf amp).nonDcValue := lt_of_lt_of_le hk3 (s2 k0 hk1 hk2)
  rcases s3 with ⟨_, hz⟩ | ⟨hp1, hp2, hp3, hp4, hp5⟩
  · rw [hz] at hpos
    exact absurd hpos (lt_irrefl 0)
  · refine ⟨by rw [hidx]; exact hp1, by rw [hidx]; exact hp2, ?_, ?_⟩
    · intro k hka hkb
      rw [hidx, hp3]
      exact s2 k hka hkb
    · intro k hka hkb
      rw [hidx] at hkb ⊢
      rw [hp3]
      exact hp5 k hka hkb

/-- When no non-DC bin is strictly positive, `findPeak` falls back to the
first overall maximum (starting from bin 0). -/
lemma findPeak_fallback_case {α : Type} [LinearOrderedField α] (amp freq : List α)
    (h : ¬ ∃ k, 1 ≤ k ∧ k < amp.length ∧ 0 < amp.getD k 0) :
    ((findPeak amp freq).index < amp.length ∨ (findPeak amp freq).index = 0) ∧
    (∀ k, k < amp.length → amp.getD k 0 ≤ amp.getD (findPeak amp freq).index 0) ∧
    (∀ k, k < (findPeak amp freq).index →
      amp.getD k 0 < amp.getD (findPeak amp freq).index 0) := by
  have hs := findPeak_scan amp
  obtain ⟨s1, s2, s3, s4, s5, s6, s7, s8⟩ := hs
  have hnd : (peakScanOf amp).hasNonDc = false := by
    cases hcases : (peakScanOf amp).hasNonDc
    · rfl
    · obtain ⟨k, hk1, hk2, hk3⟩ := s4.mp hcases
      exact absurd ⟨k, hk1, by omega, hk3⟩ h
  have hidx : (findPeak amp freq).index = (peakScanOf amp).maxIndex := by
    rw [findPeak_index, hnd]
    exact if_neg (by simp)
  refine ⟨?_, ?_, ?_⟩
  · rw [hidx]
    by_cases hl : amp.length = 0
    · right
      omega
    · left
      omega
  · intro k hk
    rw [hidx, s5]
    exact s7 k (by omega)
  · intro k hk
    rw [hidx] at hk ⊢
    rw [s5]
    exact s8 k hk

/-- An all-zero (or pure-DC) non-DC range with a nonnegative DC bin gives
`peak.index = 0`. -/
lemma findPeak_zero_case {α : Type} [LinearOrderedField α] (amp freq : List α)
    (h0 : 0 ≤ amp.getD 0 0)
    (h : ∀ k, 1 ≤ k → k < amp.length → amp.getD k 0 = 0) :
    (findPeak amp freq).index = 0 := by
  have hne : ¬ ∃ k, 1 ≤ k ∧ k < amp.length ∧ 0 < amp.getD k 0 := by
    rintro ⟨k, hk1, hk2, hk3⟩
    rw [h k hk1 hk2] at hk3
    exact lt_irrefl 0 hk3
  obtain ⟨hdisj, _, hlt⟩ := findPeak_fallback_case amp freq hne
  by_contra hne0
  have hge : 1 ≤ (findPeak amp freq).index := by omega
  rcases hdisj with hlt' | hz
  · have hh := hlt 0 (by omega)
    rw [h _ hge hlt'] at hh
    exact absurd (lt_of_le_of_lt h0 hh) (lt_irrefl 0)
  · exact hne0 hz

/-- C10.  Ties in peak detection resolve to the smallest index: the scan
uses strict `>` comparisons, so the first maximum wins — both for the
non-DC selection over `k ≥ 1` and for the overall-maximum fallback used
when no non-DC bin is strictly positive. -/
theorem findPeak_first_wins {α : Type} [LinearOrderedField α]
    (amplitude frequencies : List α) :
    ((∃ k, 1 ≤ k ∧ k < amplitude.length ∧ 0 < amplitude.getD k 0) →
      1 ≤ (findPeak amplitude frequencies).index ∧
      (findPeak amplitude frequencies).index < amplitude.length ∧
      (∀ k, 1 ≤ k → k < amplitude.length →
        amplitude.getD k 0 ≤ amplitude.getD (findPeak amplitude frequencies).index 0) ∧
      (∀ k, 1 ≤ k → k < (findPeak amplitude frequencies).index →
        amplitude.getD k 0 < amplitude.getD (findPeak amplitude frequencies).index 0)) ∧
    ((¬ ∃ k, 1 ≤ k ∧ k < amplitude.length ∧ 0 < amplitude.getD k 0) →
      ((findPeak amplitude frequencies).index < amplitude.length ∨
        (findPeak amplitude frequencies).index = 0) ∧
      (∀ k, k < amplitude.length →
        amplitude.getD k 0 ≤ amplitude.getD (findPeak amplitude frequencies).index 0) ∧
      (∀ k, k < (findPeak amplitude frequencies).index →
        amplitude.getD k 0 < amplitude.getD (findPeak amplitude frequencies).index 0)) :=
  ⟨findPeak_pos_case amplitude frequencies, findPeak_fallback_case amplitude frequencies⟩

/-- Witness for C10 over `ℚ`: amplitudes `[5, 3, 7, 7]` have a tie at the
maximum over `k ≥ 1`; the selected index is in range, at least 1, maximal,
and strictly greater than every earlier non-DC amplitude. -/
theorem findPeak_first_wins_witness :
    1 ≤ (findPeak ([5, 3, 7, 7] : List ℚ) [0, 0, 0, 0]).index ∧
    (findPeak ([5, 3, 7, 7] : List ℚ) [0, 0, 0, 0]).index
      < ([5, 3, 7, 7] : List ℚ).length ∧
    ([5, 3, 7, 7] : List ℚ).getD 1 0
      ≤ ([5, 3, 7, 7] : List ℚ).getD
          (findPeak ([5, 3, 7, 7] : List ℚ) [0, 0, 0, 0]).index 0 := by
  have h := (findPeak_first_wins ([5, 3, 7, 7] : List ℚ) [0, 0, 0, 0]).1
    ⟨2, by norm_num, by norm_num, by decide⟩
  exact ⟨h.1, h.2.1, h.2.2.1 1 (by norm_num) (by norm_num)⟩

lemma magnitudeList_getD_nonneg (c : CArr ℝ) (k : ℕ) : 0 ≤ (magnitudeList c).getD k 0 := by
  rw [magnitudeList]
  by_cases hk : k < c.real.length
  · rw [getD_map_range _ _ _ _ hk]
    exact Real.sqrt_nonneg _
  · rw [List.getD_eq_getElem?_getD, List.getElem?_eq_none (by simp; omega)]
    exact le_rfl

lemma scaleAmplitudeOneSided_getD_nonneg (mags : List ℝ) (N k : ℕ)
    (hm : ∀ j, 0 ≤ mags.getD j 0) : 0 ≤ (scaleAmplitudeOneSided mags N).getD k 0 := by
  rw [scaleAmplitudeOneSided]
  by_cases hk : k < N / 2 + 1
  · rw [getD_map_range _ _ _ _ hk]
    by_cases hcond : k = 0 ∨ (N % 2 = 0 ∧ k = N / 2)
    · rw [if_pos hcond]
      exact div_nonneg (hm k) (Nat.cast_nonneg N)
    · rw [if_neg hcond]
      exact div_nonneg (by nlinarith [hm k]) (Nat.cast_nonneg N)
  · rw [List.getD_eq_getElem?_getD, List.getElem?_eq_none (by simp; omega)]
    exact le_rfl

lemma scaleAmplitudeTwoSided_getD_nonneg (mags : List ℝ) (N k : ℕ)
    (hm : ∀ j, 0 ≤ mags.getD j 0) : 0 ≤ (scaleAmplitudeTwoSided mags N).getD k 0 := by
  rw [scaleAmplitudeTwoSided]
  by_cases hk : k < N
  · rw [getD_map_range _ _ _ _ hk]
    exact div_nonneg (hm k) (Nat.cast_nonneg N)
  · rw [List.getD_eq_getElem?_getD, List.getElem?_eq_none (by simp; omega)]
    exact le_rfl

/-- Inversion of a successful `spectrum` call: the peak is `findPeak` of
the returned amplitude and frequency arrays with the phase patched from
the returned phase array, and every amplitude entry is nonnegative (it is
a scaled magnitude). -/
lemma spectrum_ok_inv (samples : List ℝ) (options : SpectrumOptions) (r : SpectrumResult)
    (h : spectrum samples options = .ok r) :
    r.peak.index = (findPeak r.amplitude r.frequencies).index ∧
    r.peak.frequency = r.frequencies.getD r.peak.index 0 ∧
    r.peak.amplitude = r.amplitude.getD r.peak.index 0 ∧
    r.peak.phase = r.phase.getD r.peak.index 0 ∧
    (∀ k, 0 ≤ r.amplitude.getD k 0) := by
  rw [spectrum] at h
  split at h
  · split at h
    · exact absurd h (by simp)
    · split at h
      · exact absurd h (by simp)
      · split at h
        · split at h
          · exact absurd h (by simp)
          · rw [Except.ok.injEq] at h
            subst h
            refine ⟨rfl, rfl, rfl, rfl, ?_⟩
            intro k
            exact scaleAmplitudeOneSided_getD_nonneg _ _ _
              fun j => magnitudeList_getD_nonneg _ j
        · split at h
          · exact absurd h (by simp)
          · rw [Except.ok.injEq] at h
            subst h
            refine ⟨rfl, rfl, rfl, rfl, ?_⟩
            intro k
            exact scaleAmplitudeTwoSided_getD_nonneg _ _ _
              fun j => magnitudeList_getD_nonneg _ j
  · exact absurd h (by simp)

/-- C4.  For every spectrum produced by `spectrum()`: if the amplitude
array has a strictly positive bin at some `k ≥ 1`, `peak.index` is the
argmax of the amplitude over `k ≥ 1` (first index attaining the maximum);
for an all-zero or pure-DC amplitude array (all non-DC bins zero),
`peak.index = 0`; and `peak.frequency`, `peak.amplitude` and `peak.phase`
equal the entries of the returned arrays at `peak.index`. -/
theorem spectrum_peak_spec (samples : List ℝ) (options : SpectrumOptions)
    (r : SpectrumResult) (h : spectrum samples options = .ok r) :
    ((∃ k, 1 ≤ k ∧ k < r.amplitude.length ∧ 0 < r.amplitude.getD k 0) →
      1 ≤ r.peak.index ∧ r.peak.index < r.amplitude.length ∧
      ∀ k, 1 ≤ k → k < r.amplitude.length →
        r.amplitude.getD k 0 ≤ r.amplitude.getD r.peak.index 0) ∧
    ((∀ k, 1 ≤ k → k < r.amplitude.length → r.amplitude.getD k 0 = 0) →
      r.peak.index = 0) ∧
    r.peak.frequency = r.frequencies.getD r.peak.index 0 ∧
    r.peak.amplitude = r.amplitude.getD r.peak.index 0 ∧
    r.peak.phase = r.phase.getD r.peak.index 0 := by
  obtain ⟨hidx, hfreq, hamp, hph, hnn⟩ := spectrum_ok_inv samples options r h
  refine ⟨?_, ?_, hfreq, hamp, hph⟩
  · intro hex
    obtain ⟨h1, h2, h3, _⟩ := findPeak_pos_case r.amplitude r.frequencies hex
    rw [hidx]
    exact ⟨h1, h2, h3⟩
  · intro hzero
    rw [hidx]
    exact findPeak_zero_case r.amplitude r.frequencies (hnn 0) hzero

lemma hypotR_zero : hypotR 0 0 = 0 := by
  rw [hypotR]
  norm_num

lemma atan2R_zero : atan2R 0 0 = 0 := by
  rw [atan2R]
  have hz : (⟨0, 0⟩ : ℂ) = 0 := by
    apply Complex.ext <;> simp
  rw [hz, Complex.arg_zero]

/-- Witness for C4: the default call `spectrum([])` (frame `[0]`, plan size
1) succeeds and its all-zero amplitude spectrum yields `peak.index = 0`
with the peak fields equal to the array entries. -/
theorem spectrum_peak_witness :
    spectrum [] ⟨none, none, none, none⟩
        = .ok ⟨[0], [0], [0], ⟨0, 0, 0, 0⟩⟩ ∧
      (⟨[0], [0], [0], ⟨0, 0, 0, 0⟩⟩ : SpectrumResult).peak.index = 0 := by
  have h0 : spectrum [] ⟨none, none, none, none⟩
      = .ok ⟨[0], [0], [0], ⟨0, 0, 0, 0⟩⟩ := by
    rw [spectrum]
    norm_num [nextPowerOfTwo, isPowerOfTwo, createWindow, buildFrame, applyWindowBuf,
      writeSeq, fftTransform, stagesF, scatterF, bitRev, bitRevLoop, magnitudeList,
      phaseList, hypotR_zero, atan2R_zero, scaleAmplitudeOneSided, scaleAmplitudeTwoSided,
      binFrequencies, findPeak, peakLoop, Nat.log2]
    constructor
    · rw [show List.range 1 = [0] from rfl]
      simp
    · rw [show List.range 1 = [0] from rfl]
      simp
  refine ⟨h0, ?_⟩
  exact (spectrum_peak_spec [] ⟨none, none, none, none⟩ _ h0).2.1
    fun k hk1 hk2 => absurd (lt_of_le_of_lt hk1 hk2) (lt_irrefl 1)

end PragmaDsp
